import Mathlib

/-!
# grubenv: a GRUB environment-block editor

Shallow embedding of `src/grubenv.c`.

* A byte is a natural number (`uint8_t`; only comparison with `0` and with
  `'='` = 61 matters, no byte arithmetic is performed by the program).
* The environment block `env` is the list of the `blk_size` bytes that
  `malloc (blk_size)` returned, so `blk_size env = env.length`.
* A pointer into the block is the offset from `env`; `NULL` is `none`.
* A command-line string (`key`, `arg`) is the list of its bytes before the
  terminator; the memory it occupies is `cstr s = s ++ [0]`.
* Every function that reads or writes memory returns an `Option`: `none`
  stands for an access outside the object (undefined behaviour in C).
* The `while` loops carry an iteration budget.  Every iteration advances
  `off` by at least one, so `blk_size + 1` iterations always suffice
  (`data_end_loop_budget`, `find_kv_loop_budget`, `cmd_list_loop_budget`).
* A file descriptor is the list of what the successive calls of `read` or
  `write` meet (bytes available, room, or an error); `die` is an outcome of
  the I/O helpers, and a local variable read before it is assigned is `none`.
* `size_t` sums are sums of natural numbers: the operands are an offset into
  the block (at most `blk_size < 2 ^ 32`) and the length of a string held in
  memory, so no sum wraps.
-/

namespace Grubenv

/-- A byte (`uint8_t`, `char`). -/
abbrev Byte := Nat

/-- The character `'='`. -/
abbrev EQ : Byte := 61

/-- Size of the block: `env` points to `blk_size` bytes. -/
def blk_size (env : List Byte) : Nat := env.length

/-- Memory occupied by a C string: its bytes followed by the terminator. -/
def cstr (s : List Byte) : List Byte := s ++ [0]

/-! ## libc -/

/-- `strlen (s)`: the number of bytes before the first zero byte; `none` when the
object ends before a zero byte is met. -/
def strlen : List Byte → Option Nat
  | [] => none
  | b :: m => if b = 0 then some 0 else (strlen m).map (· + 1)

/-- `strchr (s, c)`: the offset of the first `c` in the string `s`, `some none`
for `NULL` (the terminator is met first), `none` when the object ends before. -/
def strchr : List Byte → Byte → Option (Option Nat)
  | [], _ => none
  | b :: m, c =>
    if b = c then some (some 0)
    else if b = 0 then some none
    else (strchr m c).map (fun r => r.map (· + 1))

/-- `strncmp (s1, s2, n) == 0`: compares at most `n` bytes, stopping after a
common zero byte. -/
def strncmp : List Byte → List Byte → Nat → Option Bool
  | _, _, 0 => some true
  | a :: s1, b :: s2, n + 1 =>
    if a ≠ b then some false
    else if a = 0 then some true
    else strncmp s1 s2 n
  | _, _, _ + 1 => none

/-- `memmove (env + dst, env + src, n)`. -/
def memmove (env : List Byte) (dst src n : Nat) : Option (List Byte) :=
  if dst + n ≤ env.length ∧ src + n ≤ env.length then
    some (env.take dst ++ (env.drop src).take n ++ env.drop (dst + n))
  else none

/-- `memset (env + off, c, n)`. -/
def memset (env : List Byte) (off : Nat) (c : Byte) (n : Nat) : Option (List Byte) :=
  if off + n ≤ env.length then
    some (env.take off ++ List.replicate n c ++ env.drop (off + n))
  else none

/-- `memcpy (env + off, src, n)`. -/
def memcpy (env : List Byte) (off : Nat) (src : List Byte) (n : Nat) : Option (List Byte) :=
  if off + n ≤ env.length ∧ n ≤ src.length then
    some (env.take off ++ src.take n ++ env.drop (off + n))
  else none

/-- The string printed by `printf ("%s\n", s)`: the bytes before the terminator. -/
def printf_s (s : List Byte) : Option (List Byte) :=
  (strlen s).map (fun n => s.take n)

/-! ## string utilities -/

/-- The loop of `data_end`. -/
def data_end_loop (env : List Byte) : Nat → Nat → Option Nat
  | 0, _ => none
  | fuel + 1, off =>
    if off < blk_size env ∧ env.getD off 0 ≠ 0 then
      (strlen (env.drop off)).bind fun n => data_end_loop env fuel (off + n + 1)
    else some off

/-- `data_end (env)`: the offset at which the scan of the records stops. -/
def data_end (env : List Byte) : Option Nat :=
  data_end_loop env (blk_size env + 1) 0

/-- The test of `find_kv` on the record `pair`:
`eq && (size_t)(eq - pair) == klen && strncmp (pair, key, klen) == 0`. -/
def kv_match (pair key : List Byte) (klen : Nat) : Option Bool :=
  (strchr pair EQ).bind fun eq =>
    match eq with
    | none => some false
    | some i => if i = klen then strncmp pair (cstr key) klen else some false

/-- The loop of `find_kv`. -/
def find_kv_loop (env key : List Byte) (klen : Nat) : Nat → Nat → Option (Option Nat)
  | 0, _ => none
  | fuel + 1, off =>
    if off < blk_size env ∧ env.getD off 0 ≠ 0 then
      (kv_match (env.drop off) key klen).bind fun hit =>
        if hit then some (some off)
        else (strlen (env.drop off)).bind fun n =>
          find_kv_loop env key klen fuel (off + n + 1)
    else some none

/-- `find_kv (env, key)`: the offset of the first record whose key is `key`. -/
def find_kv (env key : List Byte) : Option (Option Nat) :=
  (strlen (cstr key)).bind fun klen =>
    find_kv_loop env key klen (blk_size env + 1) 0

/-- `room_left (env, need)`. -/
def room_left (env : List Byte) (need : Nat) : Option Bool :=
  (data_end env).map fun e => decide (e + need < blk_size env)

/-! ## command handlers -/

/-- How a command handler ends: it returns, or it calls `exit (EXIT_FAILURE)`
after one of its two messages. -/
inductive Exit
  | returned
  | var_value_required
  | env_block_full
  deriving DecidableEq, Repr

/-- The loop of `cmd_list`; the result is the list of the lines printed. -/
def cmd_list_loop (env : List Byte) : Nat → Nat → Option (List (List Byte))
  | 0, _ => none
  | fuel + 1, off =>
    if off < blk_size env ∧ env.getD off 0 ≠ 0 then
      (printf_s (env.drop off)).bind fun line =>
        (strlen (env.drop off)).bind fun n =>
          (cmd_list_loop env fuel (off + n + 1)).map fun rest => line :: rest
    else some []

/-- `cmd_list (env)`: the lines printed, one per record. -/
def cmd_list (env : List Byte) : Option (List (List Byte)) :=
  cmd_list_loop env (blk_size env + 1) 0

/-- `cmd_get (env, key)`: the line printed, if any. -/
def cmd_get (env key : List Byte) : Option (Option (List Byte)) :=
  (find_kv env key).bind fun kv =>
    match kv with
    | none => some none
    | some o =>
      (strchr (env.drop o) EQ).bind fun val =>
        match val with
        | none => some none
        | some i => (printf_s (env.drop (o + i + 1))).map some

/-- The removal of the record at offset `old`, as written in both `cmd_set` and
`cmd_unset`:
`len = strlen (old) + 1; memmove (old, old + len, blk_size - (old - env) - len);
memset (env + blk_size - len, 0, len)`. -/
def remove_record (env : List Byte) (old : Nat) : Option (List Byte) :=
  (strlen (env.drop old)).bind fun n =>
    let len := n + 1
    (memmove env old (old + len) (blk_size env - old - len)).bind fun env1 =>
      memset env1 (blk_size env - len) 0 len

/-- `cmd_set (env, arg)`: how the call ends and the block at that point. -/
def cmd_set (env arg : List Byte) : Option (Exit × List Byte) :=
  (strchr (cstr arg) EQ).bind fun eq =>
    if eq = none ∨ eq = some 0 then some (Exit.var_value_required, env)
    else
      (find_kv env arg).bind fun old =>
        (match old with
          | some o => remove_record env o
          | none => some env).bind fun env1 =>
          (strlen (cstr arg)).bind fun n =>
            let len := n + 1
            (room_left env1 len).bind fun room =>
              if !room then some (Exit.env_block_full, env1)
              else
                (data_end env1).bind fun off =>
                  (memcpy env1 off (cstr arg) len).map fun env2 =>
                    (Exit.returned, env2)

/-- `cmd_unset (env, key)`: the block after the call. -/
def cmd_unset (env key : List Byte) : Option (List Byte) :=
  (find_kv env key).bind fun old =>
    match old with
    | none => some env
    | some o => remove_record env o

/-- `cmd_clear (env)`. -/
def cmd_clear (env : List Byte) : Option (List Byte) :=
  memset env 0 0 (blk_size env)


/-! ## the records of a block -/

/-- The bytes of a sequence of records laid out back to back, each followed
by its terminator. -/
def encode : List (List Byte) → List Byte
  | [] => []
  | r :: rs => r ++ 0 :: encode rs

/-- The key of a record: its bytes before its first `'='`; a record without
`'='` has no key. -/
def record_key (r : List Byte) : Option (List Byte) :=
  if EQ ∈ r then some (r.takeWhile (fun b => b != EQ)) else none

/-- The value of a record: its bytes after its first `'='`. -/
def record_value (r : List Byte) : List Byte :=
  (r.dropWhile (fun b => b != EQ)).drop 1

/-- Whether the record `r` has the key `key`. -/
def has_key (key r : List Byte) : Bool :=
  decide (record_key r = some key)

/-- The scan of the records meets `recs` and then stops in front of `tail`:
the block is `recs` laid out from offset 0, every record is a non-empty string,
and `tail` is empty or starts with a zero byte. -/
def Scans (env : List Byte) (recs : List (List Byte)) (tail : List Byte) : Prop :=
  env = encode recs ++ tail ∧ tail.headD 0 = 0 ∧ ∀ r ∈ recs, r ≠ [] ∧ 0 ∉ r

/-- A well-formed block with records `recs`: the records are packed from
offset 0 and only zero bytes follow them, every record is `KEY=VALUE` with a
non-empty key and no zero byte, and no two records share a key. -/
def WellFormed (env : List Byte) (recs : List (List Byte)) : Prop :=
  env = encode recs ++ List.replicate (env.length - (encode recs).length) 0 ∧
  (∀ r ∈ recs, 0 ∉ r ∧ EQ ∈ r ∧ r.head? ≠ some EQ) ∧
  (recs.map record_key).Nodup

instance (env : List Byte) (recs : List (List Byte)) : Decidable (WellFormed env recs) := by
  unfold WellFormed; infer_instance

/-! ## the `create` command -/

/-- `strncpy (env, src, n)`: writes exactly `n` bytes at `env`, the bytes of the
string `src` (at most `n` of them) and then zero bytes. -/
def strncpy (env src : List Byte) (n : Nat) : Option (List Byte) :=
  if n ≤ env.length ∧ (n ≤ src.length ∨ 0 ∈ src) then
    some ((src.takeWhile (fun b => b != 0) ++ List.replicate n 0).take n ++ env.drop n)
  else none

/-- The characters of `header` in `main`: `"# GRUB Environment Block\n"`. The
array `header` is `cstr header`, of `sizeof (header)` = 26 bytes. -/
def header : List Byte :=
  [35, 32, 71, 82, 85, 66, 32, 69, 110, 118, 105, 114, 111, 110, 109, 101, 110, 116, 32,
    66, 108, 111, 99, 107, 10]

/-- The `create` branch of `main` on the buffer `env` that `malloc (blk_size)`
returned: `cmd_clear (env); strncpy ((char *)env, header, sizeof (header));`
(line 220 has let through every `blk_size` of at least 8). -/
def main_create (env : List Byte) : Option (List Byte) :=
  (cmd_clear env).bind fun env1 => strncpy env1 (cstr header) (cstr header).length

/-! ## I/O helpers -/

/-- What one call of `read` meets: bytes that are available, of which the call
takes at most `count` (no byte available is the end of the input), or an
error. -/
inductive ReadEvent
  | data (bytes : List Byte)
  | error
  deriving DecidableEq, Repr

/-- What one call of `write` meets: the number of bytes the descriptor takes at
most, or an error. -/
inductive WriteEvent
  | accept (room : Nat)
  | error
  deriving DecidableEq, Repr

/-- How an I/O helper ends: it returns (`done`, with the buffer filled by
`read_all`, or with the bytes `write_all` has written), or it calls `die`. -/
inductive Done
  | done (bytes : List Byte)
  | die
  deriving DecidableEq, Repr

/-- The loop of `read_all`, `while (off < n && (r = read (fd, buf + off, n - off)) > 0)
off += r;`, on the events the successive calls of `read` meet (after the last
event `read` returns 0). The state is the buffer, `off`, and `r`, which is `none`
as long as it has not been assigned. -/
def read_all_loop (n : Nat) :
    List ReadEvent → List Byte → Nat → Option Int → Option (List Byte × Nat × Option Int)
  | [], buf, off, r =>
    if off < n then some (buf, off, some 0) else some (buf, off, r)
  | ReadEvent.error :: _, buf, off, r =>
    if off < n then some (buf, off, some (-1)) else some (buf, off, r)
  | ReadEvent.data bytes :: fd, buf, off, r =>
    if off < n then
      if 0 < min bytes.length (n - off) then
        (memcpy buf off bytes (min bytes.length (n - off))).bind fun buf1 =>
          read_all_loop n fd buf1 (off + min bytes.length (n - off))
            (some (Int.ofNat (min bytes.length (n - off))))
      else some (buf, off, some 0)
    else some (buf, off, r)

/-- `read_all (fd, buf, n)`. -/
def read_all (fd : List ReadEvent) (buf : List Byte) (n : Nat) : Option Done :=
  (read_all_loop n fd buf 0 none).bind fun st =>
    match st.2.2 with
    | none => none
    | some r =>
      if r < 0 then some Done.die
      else if st.2.1 < n then (memset st.1 st.2.1 0 (n - st.2.1)).map Done.done
      else some (Done.done st.1)

/-- The loop of `write_all`, on the events the successive calls of `write` meet
(after the last event `write` takes all it is given). The state is `off`, `w`
(`none` as long as it has not been assigned) and the bytes written so far. -/
def write_all_loop (buf : List Byte) (n : Nat) :
    List WriteEvent → Nat → Option Int → List Byte → Option (Nat × Option Int × List Byte)
  | [], off, w, out =>
    if off < n then
      if off + (n - off) ≤ buf.length then
        some (off + (n - off), some (Int.ofNat (n - off)), out ++ (buf.drop off).take (n - off))
      else none
    else some (off, w, out)
  | WriteEvent.error :: _, off, w, out =>
    if off < n then some (off, some (-1), out) else some (off, w, out)
  | WriteEvent.accept room :: fd, off, w, out =>
    if off < n then
      if 0 < min room (n - off) then
        if off + min room (n - off) ≤ buf.length then
          write_all_loop buf n fd (off + min room (n - off))
            (some (Int.ofNat (min room (n - off))))
            (out ++ (buf.drop off).take (min room (n - off)))
        else none
      else some (off, some 0, out)
    else some (off, w, out)

/-- `write_all (fd, buf, n)`: the bytes written to `fd`. -/
def write_all (fd : List WriteEvent) (buf : List Byte) (n : Nat) : Option Done :=
  (write_all_loop buf n fd 0 none []).bind fun st =>
    match st.2.1 with
    | none => none
    | some w => if w ≤ 0 then some Done.die else some (Done.done st.2.2)

/-- What `load_env` meets at `path`: the path is `"-"` (with the standard input),
or `open (path, O_RDONLY)` returns a descriptor, fails with `ENOENT`, or fails
otherwise. -/
inductive LoadPath
  | stdin (fd : List ReadEvent)
  | opened (fd : List ReadEvent)
  | enoent
  | open_failed
  deriving DecidableEq, Repr

/-- `load_env (path, env)`. -/
def load_env (path : LoadPath) (env : List Byte) : Option Done :=
  match path with
  | LoadPath.stdin fd => read_all fd env (blk_size env)
  | LoadPath.enoent => (memset env 0 0 (blk_size env)).map Done.done
  | LoadPath.open_failed => some Done.die
  | LoadPath.opened fd => read_all fd env (blk_size env)

/-- What `save_env` meets at `path`: the path is `"-"` (with the standard
output), or `open (path, O_WRONLY | O_CREAT | O_TRUNC, 0644)` returns a descriptor
of the emptied file, or fails. -/
inductive SavePath
  | stdout (fd : List WriteEvent)
  | opened (fd : List WriteEvent)
  | open_failed
  deriving DecidableEq, Repr

/-- `save_env (path, env)`: the bytes written, which are the contents of the file
afterwards. -/
def save_env (path : SavePath) (env : List Byte) : Option Done :=
  match path with
  | SavePath.stdout fd => write_all fd env (blk_size env)
  | SavePath.open_failed => some Done.die
  | SavePath.opened fd => write_all fd env (blk_size env)

/-! ## invariants of the block -/

/-- Invariant I1 with used length `u`: the scan stops at `u`, inside the block,
and every byte from `u` to the end of the block is zero. -/
def ZeroPadded (env : List Byte) (u : Nat) : Prop :=
  data_end env = some u ∧ u ≤ blk_size env ∧
    ∀ i, i < blk_size env → u ≤ i → env.getD i 0 = 0

instance (env : List Byte) (u : Nat) : Decidable (ZeroPadded env u) := by
  unfold ZeroPadded; infer_instance

/-- The blocks of `n` bytes reached from the blank block by calls of `cmd_set`
that return, of `cmd_unset` and of `cmd_clear` (the arguments are C strings). -/
inductive Reachable (n : Nat) : List Byte → Prop
  | blank : Reachable n (List.replicate n 0)
  | set (env s env1 : List Byte) : Reachable n env → 0 ∉ s →
      cmd_set env s = some (Exit.returned, env1) → Reachable n env1
  | unset (env key env1 : List Byte) : Reachable n env → 0 ∉ key →
      cmd_unset env key = some env1 → Reachable n env1
  | clear (env env1 : List Byte) : Reachable n env →
      cmd_clear env = some env1 → Reachable n env1

/-! ## libc lemmas -/

theorem strlen_append (r rest : List Byte) (h : 0 ∉ r) :
    strlen (r ++ 0 :: rest) = some r.length := by
  induction r with
  | nil => simp [strlen]
  | cons b m ih =>
    have hb : b ≠ 0 := fun e => h (by simp [e])
    have hm : 0 ∉ m := fun e => h (by simp [e])
    simp [strlen, hb, ih hm]

theorem strlen_cstr (s : List Byte) (h : 0 ∉ s) : strlen (cstr s) = some s.length := by
  unfold cstr; exact strlen_append s [] h

theorem strlen_some {m : List Byte} {n : Nat} (h : strlen m = some n) :
    ∃ rest, m = m.take n ++ 0 :: rest ∧ 0 ∉ m.take n ∧ (m.take n).length = n := by
  induction m generalizing n with
  | nil => simp [strlen] at h
  | cons b m ih =>
    by_cases hb : b = 0
    · simp [strlen, hb] at h
      subst h; subst hb
      exact ⟨m, by simp⟩
    · simp only [strlen, hb, if_false, Option.map_eq_some'] at h
      obtain ⟨k, hk, rfl⟩ := h
      obtain ⟨rest, h1, h2, h3⟩ := ih hk
      refine ⟨rest, ?_, ?_, ?_⟩
      · simp only [List.take_succ_cons, List.cons_append]
        rw [← h1]
      · simp only [List.take_succ_cons, List.mem_cons, not_or]
        exact ⟨fun e => hb e.symm, h2⟩
      · simp [h3]

theorem strchr_append (r rest : List Byte) (h : 0 ∉ r) :
    strchr (r ++ 0 :: rest) EQ =
      some (if EQ ∈ r then some (r.takeWhile (fun b => b != EQ)).length else none) := by
  induction r with
  | nil => simp [strchr]
  | cons b m ih =>
    have hb : b ≠ 0 := fun e => h (by simp [e])
    have hm : 0 ∉ m := fun e => h (by simp [e])
    by_cases he : b = EQ
    · subst he; simp [strchr]
    · have he' : ¬ EQ = b := fun e => he e.symm
      have ih' := ih hm
      by_cases hin : EQ ∈ m
      · simp only [hin, if_true] at ih'
        simp [strchr, he, hb, ih', hin, List.takeWhile_cons]
      · simp only [hin, if_false] at ih'
        simp [strchr, he, hb, ih', hin, he']

theorem strncmp_take (key a tl : List Byte) (h0 : 0 ∉ key) (hlen : key.length ≤ a.length) :
    strncmp a (key ++ tl) key.length = some (decide (a.take key.length = key)) := by
  induction key generalizing a with
  | nil => simp [strncmp]
  | cons k ks ih =>
    have hk : k ≠ 0 := fun e => h0 (by simp [e])
    have hks : 0 ∉ ks := fun e => h0 (by simp [e])
    cases a with
    | nil => simp at hlen
    | cons x xs =>
      have hl : ks.length ≤ xs.length := by simpa using hlen
      by_cases hx : x = k
      · subst hx
        simp [strncmp, hk, ih xs hks hl]
      · simp [strncmp, hx]


theorem take_takeWhile_length (p : Byte → Bool) (l : List Byte) :
    l.take (l.takeWhile p).length = l.takeWhile p := by
  induction l with
  | nil => simp
  | cons b m ih =>
    by_cases hb : p b
    · simp [List.takeWhile_cons, hb, ih]
    · simp [List.takeWhile_cons, hb]

theorem takeWhile_length_le (p : Byte → Bool) (l : List Byte) :
    (l.takeWhile p).length ≤ l.length :=
  (List.takeWhile_sublist p).length_le

theorem kv_match_record (r rest key : List Byte) (hr : 0 ∉ r) (hk : 0 ∉ key) :
    kv_match (r ++ 0 :: rest) key key.length = some (has_key key r) := by
  unfold kv_match has_key record_key
  rw [strchr_append r rest hr]
  by_cases hin : EQ ∈ r
  · simp only [hin, if_true, Option.some_bind]
    by_cases hlen : (r.takeWhile (fun b => b != EQ)).length = key.length
    · have hle : key.length ≤ (r ++ 0 :: rest).length := by
        have := takeWhile_length_le (fun b => b != EQ) r
        simp only [List.length_append]; omega
      have htake : (r ++ 0 :: rest).take key.length = r.takeWhile (fun b => b != EQ) := by
        rw [← hlen, List.take_append_of_le_length (takeWhile_length_le _ r)]
        exact take_takeWhile_length _ r
      simp only [hlen, if_true, cstr, strncmp_take key _ [0] hk hle, htake, Option.some.injEq]
    · have hne : ¬ r.takeWhile (fun b => b != EQ) = key := fun e => hlen (by rw [e])
      simp [hlen, hne]
  · simp [hin]

/-- The loop condition `off < blk_size && env[off]` in terms of the bytes from
`off` on. -/
theorem scan_cond (env : List Byte) (off : Nat) :
    (off < blk_size env ∧ env.getD off 0 ≠ 0) ↔ (env.drop off).headD 0 ≠ 0 := by
  unfold blk_size
  rw [List.headD_eq_head?_getD, List.head?_drop, List.getD_eq_getElem?_getD]
  by_cases h : off < env.length
  · simp [h]
  · have : env[off]? = none := by simp at h; simp [h]
    simp [h, this]

theorem scan_cond_stop {env : List Byte} {off : Nat} (h : (env.drop off).headD 0 = 0) :
    ¬ (off < blk_size env ∧ env.getD off 0 ≠ 0) :=
  fun hc => (scan_cond env off).1 hc h

theorem scan_cond_record {env r rest : List Byte} {off : Nat}
    (h : env.drop off = r ++ 0 :: rest) (hne : r ≠ []) (h0 : 0 ∉ r) :
    off < blk_size env ∧ env.getD off 0 ≠ 0 := by
  rw [scan_cond, h]
  cases r with
  | nil => exact absurd rfl hne
  | cons b m =>
    simp only [List.cons_append, List.headD_cons]
    exact fun e => h0 (by simp [e])

theorem drop_past_record {env r rest : List Byte} {off : Nat}
    (h : env.drop off = r ++ 0 :: rest) : env.drop (off + r.length + 1) = rest := by
  have : env.drop (off + r.length + 1) = (env.drop off).drop (r.length + 1) := by
    rw [List.drop_drop, Nat.add_assoc]
  rw [this, h]
  simp

theorem encode_append (a b : List (List Byte)) : encode (a ++ b) = encode a ++ encode b := by
  induction a with
  | nil => rfl
  | cons r rs ih => simp [encode, ih]

theorem encode_length_ge (recs : List (List Byte)) : recs.length ≤ (encode recs).length := by
  induction recs with
  | nil => simp [encode]
  | cons r rs ih => simp only [encode, List.length_cons, List.length_append]; omega

/-! ## the loops on a block that holds records -/

theorem data_end_loop_stop (env : List Byte) (fuel off : Nat)
    (h : (env.drop off).headD 0 = 0) : data_end_loop env (fuel + 1) off = some off := by
  simp only [data_end_loop]
  rw [if_neg (scan_cond_stop h)]

theorem data_end_loop_record (env r rest : List Byte) (fuel off : Nat)
    (h : env.drop off = r ++ 0 :: rest) (hne : r ≠ []) (h0 : 0 ∉ r) :
    data_end_loop env (fuel + 1) off = data_end_loop env fuel (off + r.length + 1) := by
  simp only [data_end_loop]
  rw [if_pos (scan_cond_record h hne h0), h, strlen_append r rest h0, Option.some_bind]

theorem data_end_loop_records (env : List Byte) (recs : List (List Byte)) :
    ∀ (fuel off : Nat) (tail : List Byte), env.drop off = encode recs ++ tail →
      tail.headD 0 = 0 → (∀ r ∈ recs, r ≠ [] ∧ 0 ∉ r) → recs.length < fuel →
      data_end_loop env fuel off = some (off + (encode recs).length) := by
  induction recs with
  | nil =>
    intro fuel off tail h ht _ hf
    obtain ⟨f, rfl⟩ : ∃ f, fuel = f + 1 := ⟨fuel - 1, by simp at hf; omega⟩
    simp only [encode, List.nil_append] at h
    rw [data_end_loop_stop env f off (by rw [h]; exact ht)]
    simp [encode]
  | cons r rs ih =>
    intro fuel off tail h ht hv hf
    obtain ⟨f, rfl⟩ : ∃ f, fuel = f + 1 := ⟨fuel - 1, by simp at hf; omega⟩
    have hr := hv r (by simp)
    have h' : env.drop off = r ++ 0 :: (encode rs ++ tail) := by
      rw [h]; simp [encode]
    rw [data_end_loop_record env r _ f off h' hr.1 hr.2,
      ih f (off + r.length + 1) tail (drop_past_record h') ht
        (fun x hx => hv x (by simp [hx])) (by simp at hf; omega)]
    simp only [encode, List.length_append, List.length_cons]
    congr 1; omega

theorem printf_s_append (r rest : List Byte) (h : 0 ∉ r) : printf_s (r ++ 0 :: rest) = some r := by
  simp [printf_s, strlen_append r rest h]

theorem cmd_list_loop_stop (env : List Byte) (fuel off : Nat)
    (h : (env.drop off).headD 0 = 0) : cmd_list_loop env (fuel + 1) off = some [] := by
  simp only [cmd_list_loop]
  rw [if_neg (scan_cond_stop h)]

theorem cmd_list_loop_record (env r rest : List Byte) (fuel off : Nat)
    (h : env.drop off = r ++ 0 :: rest) (hne : r ≠ []) (h0 : 0 ∉ r) :
    cmd_list_loop env (fuel + 1) off =
      (cmd_list_loop env fuel (off + r.length + 1)).map (fun l => r :: l) := by
  simp only [cmd_list_loop]
  rw [if_pos (scan_cond_record h hne h0), h, printf_s_append r rest h0, strlen_append r rest h0,
    Option.some_bind, Option.some_bind]

theorem cmd_list_loop_records (env : List Byte) (recs : List (List Byte)) :
    ∀ (fuel off : Nat) (tail : List Byte), env.drop off = encode recs ++ tail →
      tail.headD 0 = 0 → (∀ r ∈ recs, r ≠ [] ∧ 0 ∉ r) → recs.length < fuel →
      cmd_list_loop env fuel off = some recs := by
  induction recs with
  | nil =>
    intro fuel off tail h ht _ hf
    obtain ⟨f, rfl⟩ : ∃ f, fuel = f + 1 := ⟨fuel - 1, by simp at hf; omega⟩
    simp only [encode, List.nil_append] at h
    exact cmd_list_loop_stop env f off (by rw [h]; exact ht)
  | cons r rs ih =>
    intro fuel off tail h ht hv hf
    obtain ⟨f, rfl⟩ : ∃ f, fuel = f + 1 := ⟨fuel - 1, by simp at hf; omega⟩
    have hr := hv r (by simp)
    have h' : env.drop off = r ++ 0 :: (encode rs ++ tail) := by
      rw [h]; simp [encode]
    rw [cmd_list_loop_record env r _ f off h' hr.1 hr.2,
      ih f (off + r.length + 1) tail (drop_past_record h') ht
        (fun x hx => hv x (by simp [hx])) (by simp at hf; omega)]
    rfl

theorem find_kv_loop_stop (env key : List Byte) (klen fuel off : Nat)
    (h : (env.drop off).headD 0 = 0) :
    find_kv_loop env key klen (fuel + 1) off = some none := by
  simp only [find_kv_loop]
  rw [if_neg (scan_cond_stop h)]

theorem find_kv_loop_record (env key r rest : List Byte) (fuel off : Nat)
    (h : env.drop off = r ++ 0 :: rest) (hne : r ≠ []) (h0 : 0 ∉ r) (hk : 0 ∉ key) :
    find_kv_loop env key key.length (fuel + 1) off =
      if has_key key r then some (some off)
      else find_kv_loop env key key.length fuel (off + r.length + 1) := by
  simp only [find_kv_loop]
  rw [if_pos (scan_cond_record h hne h0), h, kv_match_record r rest key h0 hk,
    strlen_append r rest h0, Option.some_bind, Option.some_bind]

theorem find_kv_loop_none (env key : List Byte) (hk : 0 ∉ key) (recs : List (List Byte)) :
    ∀ (fuel off : Nat) (tail : List Byte), env.drop off = encode recs ++ tail →
      tail.headD 0 = 0 → (∀ r ∈ recs, r ≠ [] ∧ 0 ∉ r) →
      (∀ r ∈ recs, record_key r ≠ some key) → recs.length < fuel →
      find_kv_loop env key key.length fuel off = some none := by
  induction recs with
  | nil =>
    intro fuel off tail h ht _ _ hf
    obtain ⟨f, rfl⟩ : ∃ f, fuel = f + 1 := ⟨fuel - 1, by simp at hf; omega⟩
    simp only [encode, List.nil_append] at h
    exact find_kv_loop_stop env key _ f off (by rw [h]; exact ht)
  | cons r rs ih =>
    intro fuel off tail h ht hv hno hf
    obtain ⟨f, rfl⟩ : ∃ f, fuel = f + 1 := ⟨fuel - 1, by simp at hf; omega⟩
    have hr := hv r (by simp)
    have h' : env.drop off = r ++ 0 :: (encode rs ++ tail) := by
      rw [h]; simp [encode]
    have hnk : has_key key r = false := by
      simp [has_key, hno r (by simp)]
    rw [find_kv_loop_record env key r _ f off h' hr.1 hr.2 hk, hnk]
    exact ih f (off + r.length + 1) tail (drop_past_record h') ht
      (fun x hx => hv x (by simp [hx])) (fun x hx => hno x (by simp [hx]))
      (by simp at hf; omega)

theorem find_kv_loop_found (env key : List Byte) (hk : 0 ∉ key) (r rest : List Byte)
    (hne : r ≠ []) (h0 : 0 ∉ r) (hkey : record_key r = some key) (pre : List (List Byte)) :
    ∀ (fuel off : Nat), env.drop off = encode pre ++ (r ++ 0 :: rest) →
      (∀ x ∈ pre, x ≠ [] ∧ 0 ∉ x) →
      (∀ x ∈ pre, record_key x ≠ some key) → pre.length < fuel →
      find_kv_loop env key key.length fuel off = some (some (off + (encode pre).length)) := by
  induction pre with
  | nil =>
    intro fuel off h _ _ hf
    obtain ⟨f, rfl⟩ : ∃ f, fuel = f + 1 := ⟨fuel - 1, by simp at hf; omega⟩
    simp only [encode, List.nil_append] at h
    have hyes : has_key key r = true := by simp [has_key, hkey]
    rw [find_kv_loop_record env key r rest f off h hne h0 hk, hyes]
    simp [encode]
  | cons x xs ih =>
    intro fuel off h hv hno hf
    obtain ⟨f, rfl⟩ : ∃ f, fuel = f + 1 := ⟨fuel - 1, by simp at hf; omega⟩
    have hx := hv x (by simp)
    have h' : env.drop off = x ++ 0 :: (encode xs ++ (r ++ 0 :: rest)) := by
      rw [h]; simp [encode]
    have hnk : has_key key x = false := by
      simp [has_key, hno x (by simp)]
    rw [find_kv_loop_record env key x _ f off h' hx.1 hx.2 hk, hnk]
    rw [if_neg (by simp), ih f (off + x.length + 1) (drop_past_record h')
      (fun y hy => hv y (by simp [hy])) (fun y hy => hno y (by simp [hy]))
      (by simp at hf; omega)]
    simp only [encode, List.length_append, List.length_cons]
    congr 2; omega

/-- A scan that ends has met records: the block from `off` on is the lines
printed, each with its terminator, followed by something the scan stops at. -/
theorem cmd_list_loop_some (env : List Byte) :
    ∀ (fuel off : Nat) (recs : List (List Byte)), cmd_list_loop env fuel off = some recs →
      ∃ tail, env.drop off = encode recs ++ tail ∧ tail.headD 0 = 0 ∧
        ∀ r ∈ recs, r ≠ [] ∧ 0 ∉ r := by
  intro fuel
  induction fuel with
  | zero => intro off recs h; simp [cmd_list_loop] at h
  | succ f ih =>
    intro off recs h
    simp only [cmd_list_loop] at h
    by_cases hc : off < blk_size env ∧ env.getD off 0 ≠ 0
    · rw [if_pos hc] at h
      cases hs : strlen (env.drop off) with
      | none => simp [printf_s, hs] at h
      | some n =>
        obtain ⟨rest, h1, h2, h3⟩ := strlen_some hs
        simp only [printf_s, hs, Option.map_some', Option.some_bind, Option.map_eq_some'] at h
        obtain ⟨l, hl, rfl⟩ := h
        have hne : (env.drop off).take n ≠ [] := by
          intro e
          have hh := (scan_cond env off).1 hc
          rw [h1, e] at hh
          simp at hh
        have hd := drop_past_record h1
        rw [h3] at hd
        obtain ⟨tail, t1, t2, t3⟩ := ih (off + n + 1) l hl
        refine ⟨tail, ?_, t2, ?_⟩
        · conv_lhs => rw [h1]
          rw [hd] at t1
          simp [encode, t1]
        · intro r hr
          rcases List.mem_cons.1 hr with rfl | hr
          · exact ⟨hne, h2⟩
          · exact t3 r hr
    · rw [if_neg hc] at h
      cases h
      refine ⟨env.drop off, by simp [encode], ?_, by simp⟩
      by_contra hh
      exact hc ((scan_cond env off).2 hh)

/-! ## the iteration budget is never exhausted -/

theorem strlen_lt {m : List Byte} {n : Nat} (h : strlen m = some n) : n < m.length := by
  obtain ⟨rest, h1, _, h3⟩ := strlen_some h
  have := congrArg List.length h1
  simp only [List.length_append, List.length_cons, h3] at this
  omega

theorem data_end_loop_budget (env : List Byte) :
    ∀ (fuel off k : Nat), 0 < fuel → env.length < fuel + off →
      data_end_loop env (fuel + k) off = data_end_loop env fuel off := by
  intro fuel
  induction fuel with
  | zero => intro off k h; exact absurd h (by decide)
  | succ f ih =>
    intro off k _ hl
    rw [Nat.add_right_comm]
    simp only [data_end_loop]
    by_cases hc : off < blk_size env ∧ env.getD off 0 ≠ 0
    · rw [if_pos hc, if_pos hc]
      cases hs : strlen (env.drop off) with
      | none => rfl
      | some n =>
        have := strlen_lt hs
        simp only [List.length_drop] at this
        simp only [Option.some_bind]
        exact ih (off + n + 1) k (by omega) (by omega)
    · rw [if_neg hc, if_neg hc]

theorem cmd_list_loop_budget (env : List Byte) :
    ∀ (fuel off k : Nat), 0 < fuel → env.length < fuel + off →
      cmd_list_loop env (fuel + k) off = cmd_list_loop env fuel off := by
  intro fuel
  induction fuel with
  | zero => intro off k h; exact absurd h (by decide)
  | succ f ih =>
    intro off k _ hl
    rw [Nat.add_right_comm]
    simp only [cmd_list_loop]
    by_cases hc : off < blk_size env ∧ env.getD off 0 ≠ 0
    · rw [if_pos hc, if_pos hc]
      cases hs : strlen (env.drop off) with
      | none => simp [printf_s, hs]
      | some n =>
        have := strlen_lt hs
        simp only [List.length_drop] at this
        simp only [Option.some_bind, ih (off + n + 1) k (by omega) (by omega)]
    · rw [if_neg hc, if_neg hc]

theorem find_kv_loop_budget (env key : List Byte) (klen : Nat) :
    ∀ (fuel off k : Nat), 0 < fuel → env.length < fuel + off →
      find_kv_loop env key klen (fuel + k) off = find_kv_loop env key klen fuel off := by
  intro fuel
  induction fuel with
  | zero => intro off k h; exact absurd h (by decide)
  | succ f ih =>
    intro off k _ hl
    rw [Nat.add_right_comm]
    simp only [find_kv_loop]
    by_cases hc : off < blk_size env ∧ env.getD off 0 ≠ 0
    · rw [if_pos hc, if_pos hc]
      cases hs : strlen (env.drop off) with
      | none => rfl
      | some n =>
        have := strlen_lt hs
        simp only [List.length_drop] at this
        simp only [Option.some_bind, ih (off + n + 1) k (by omega) (by omega)]
    · rw [if_neg hc, if_neg hc]

/-! ## the functions on a block that holds records -/

theorem scans_length {env : List Byte} {recs : List (List Byte)} {tail : List Byte}
    (h : Scans env recs tail) : env.length = (encode recs).length + tail.length := by
  have := congrArg List.length h.1
  simpa using this

theorem scans_fuel {env : List Byte} {recs : List (List Byte)} {tail : List Byte}
    (h : Scans env recs tail) : recs.length < blk_size env + 1 := by
  have h1 := scans_length h
  have h2 := encode_length_ge recs
  unfold blk_size; omega

theorem scans_data_end {env : List Byte} {recs : List (List Byte)} {tail : List Byte}
    (h : Scans env recs tail) : data_end env = some (encode recs).length := by
  have := data_end_loop_records env recs (blk_size env + 1) 0 tail (by simpa using h.1)
    h.2.1 h.2.2 (scans_fuel h)
  simpa [data_end] using this

theorem scans_cmd_list {env : List Byte} {recs : List (List Byte)} {tail : List Byte}
    (h : Scans env recs tail) : cmd_list env = some recs :=
  cmd_list_loop_records env recs (blk_size env + 1) 0 tail (by simpa using h.1)
    h.2.1 h.2.2 (scans_fuel h)

theorem cmd_list_scans {env : List Byte} {recs : List (List Byte)}
    (h : cmd_list env = some recs) : ∃ tail, Scans env recs tail := by
  obtain ⟨tail, h1, h2, h3⟩ := cmd_list_loop_some env _ 0 recs h
  exact ⟨tail, by simpa using h1, h2, h3⟩

theorem find_kv_eq_loop (env key : List Byte) (hk : 0 ∉ key) :
    find_kv env key = find_kv_loop env key key.length (blk_size env + 1) 0 := by
  simp [find_kv, strlen_cstr key hk]

theorem scans_find_kv_none {env : List Byte} {recs : List (List Byte)} {tail : List Byte}
    (h : Scans env recs tail) (key : List Byte) (hk : 0 ∉ key)
    (hno : ∀ r ∈ recs, record_key r ≠ some key) : find_kv env key = some none := by
  rw [find_kv_eq_loop env key hk]
  exact find_kv_loop_none env key hk recs _ 0 tail (by simpa using h.1) h.2.1 h.2.2 hno
    (scans_fuel h)

theorem find_kv_found (pre : List (List Byte)) (r rest key : List Byte) (hk : 0 ∉ key)
    (hv : ∀ x ∈ pre, x ≠ [] ∧ 0 ∉ x) (hne : r ≠ []) (h0 : 0 ∉ r)
    (hno : ∀ x ∈ pre, record_key x ≠ some key) (hkey : record_key r = some key) :
    find_kv (encode pre ++ (r ++ 0 :: rest)) key = some (some (encode pre).length) := by
  rw [find_kv_eq_loop _ key hk]
  have := find_kv_loop_found (encode pre ++ (r ++ 0 :: rest)) key hk r rest hne h0 hkey pre
    (blk_size (encode pre ++ (r ++ 0 :: rest)) + 1) 0 (by simp) hv hno (by
      have := encode_length_ge pre
      simp only [blk_size, List.length_append]; omega)
  simpa using this

theorem record_key_no_eq {r key : List Byte} (h : record_key r = some key) : EQ ∉ key := by
  unfold record_key at h
  split at h
  · cases h
    intro hin
    have := List.mem_takeWhile_imp hin
    simp at this
  · cases h

theorem wellFormed_scans {env : List Byte} {recs : List (List Byte)}
    (h : WellFormed env recs) :
    Scans env recs (List.replicate (env.length - (encode recs).length) 0) := by
  refine ⟨h.1, ?_, ?_⟩
  · cases hn : env.length - (encode recs).length with
    | zero => rfl
    | succ n => rfl
  · intro r hr
    obtain ⟨h0, he, _⟩ := h.2.1 r hr
    exact ⟨fun e => by simp [e] at he, h0⟩

/-! ## removing and appending a record -/

theorem remove_record_bytes (A r C : List Byte) (h0 : 0 ∉ r) :
    remove_record (A ++ (r ++ 0 :: C)) A.length =
      some (A ++ C ++ List.replicate (r.length + 1) 0) := by
  have hL : blk_size (A ++ (r ++ 0 :: C)) = A.length + (r.length + 1) + C.length := by
    simp only [blk_size, List.length_append, List.length_cons]; omega
  have hn : A.length + (r.length + 1) + C.length - A.length - (r.length + 1) = C.length := by
    omega
  have hd : (A ++ (r ++ 0 :: C)).drop (A.length + (r.length + 1)) = C := by
    rw [← List.drop_drop, List.drop_left]
    have : r ++ 0 :: C = (r ++ [0]) ++ C := by simp
    rw [this]
    exact List.drop_left' (by simp)
  have hmove : memmove (A ++ (r ++ 0 :: C)) A.length (A.length + (r.length + 1)) C.length =
      some (A ++ C ++ (A ++ (r ++ 0 :: C)).drop (A.length + C.length)) := by
    unfold memmove
    rw [if_pos (by simp only [List.length_append, List.length_cons]; omega), hd]
    simp
  unfold remove_record
  rw [List.drop_left, strlen_append r C h0, Option.some_bind, hL]
  simp only [hn, hmove, Option.some_bind]
  unfold memset
  have hlen : (A ++ C ++ (A ++ (r ++ 0 :: C)).drop (A.length + C.length)).length =
      A.length + C.length + (r.length + 1) := by
    simp only [List.length_append, List.length_drop, List.length_cons]; omega
  have ho : A.length + (r.length + 1) + C.length - (r.length + 1) = (A ++ C).length := by
    simp only [List.length_append]; omega
  rw [if_pos (by rw [hlen]; omega), ho, List.take_left]
  have : (A ++ C).length + (r.length + 1) =
      (A ++ C ++ (A ++ (r ++ 0 :: C)).drop (A.length + C.length)).length := by
    rw [hlen]; simp
  rw [this, List.drop_length]
  simp

theorem memcpy_append (A T s : List Byte) (h : s.length + 1 ≤ T.length) :
    memcpy (A ++ T) A.length (cstr s) (s.length + 1) =
      some (A ++ (s ++ 0 :: T.drop (s.length + 1))) := by
  unfold memcpy cstr
  rw [if_pos (by simp only [List.length_append, List.length_cons, List.length_nil]; omega)]
  rw [List.take_left, ← List.drop_drop, List.drop_left]
  have : (s ++ [0]).take (s.length + 1) = s ++ [0] := by
    apply List.take_of_length_le; simp
  rw [this]
  simp

/-! ## a lookup string that contains `'='` matches no record -/

theorem strchr_some {m : List Byte} {c : Byte} {i : Nat} (h : strchr m c = some (some i)) :
    i < m.length ∧ c ∉ m.take i := by
  induction m generalizing i with
  | nil => simp [strchr] at h
  | cons b m ih =>
    by_cases hb : b = c
    · simp [strchr, hb] at h
      subst h; simp
    · by_cases hz : b = 0
      · subst hz
        simp [strchr, hb] at h
      · simp only [strchr, hb, hz, if_false, Option.map_eq_some'] at h
        obtain ⟨r, hr, hri⟩ := h
        cases r with
        | none => simp at hri
        | some j =>
          have hri : j + 1 = i := by simpa using hri
          subst hri
          obtain ⟨h1, h2⟩ := ih hr
          refine ⟨by simp; omega, ?_⟩
          simp only [List.take_succ_cons, List.mem_cons, not_or]
          exact ⟨fun e => hb e.symm, h2⟩

theorem kv_match_self (pair arg : List Byte) (h0 : 0 ∉ arg) (he : EQ ∈ arg) :
    kv_match pair arg arg.length ≠ some true := by
  unfold kv_match
  intro h
  cases hs : strchr pair EQ with
  | none => simp [hs] at h
  | some eq =>
    cases eq with
    | none => simp [hs] at h
    | some i =>
      simp only [hs, Option.some_bind] at h
      by_cases hi : i = arg.length
      · subst hi
        obtain ⟨h1, h2⟩ := strchr_some hs
        rw [if_pos rfl, cstr, strncmp_take arg pair [0] h0 (Nat.le_of_lt h1)] at h
        simp only [Option.some.injEq, decide_eq_true_eq] at h
        rw [h] at h2
        exact h2 he
      · simp [hi] at h

theorem find_kv_loop_self (env arg : List Byte) (h0 : 0 ∉ arg) (he : EQ ∈ arg) :
    ∀ (fuel off o : Nat), find_kv_loop env arg arg.length fuel off ≠ some (some o) := by
  intro fuel
  induction fuel with
  | zero => intro off o h; simp [find_kv_loop] at h
  | succ f ih =>
    intro off o h
    simp only [find_kv_loop] at h
    by_cases hc : off < blk_size env ∧ env.getD off 0 ≠ 0
    · rw [if_pos hc] at h
      cases hm : kv_match (env.drop off) arg arg.length with
      | none => simp [hm] at h
      | some hit =>
        cases hit with
        | true => exact kv_match_self _ arg h0 he hm
        | false =>
          simp only [hm, Option.some_bind] at h
          cases hs : strlen (env.drop off) with
          | none => simp [hs] at h
          | some n =>
            simp only [hs, Option.some_bind] at h
            exact ih _ o (by simpa using h)
    · rw [if_neg hc] at h
      cases h

/-- In `cmd_set` the lookup `find_kv (env, arg)` is made with the whole
argument `VAR=value`, which no record matches. -/
theorem find_kv_self (env arg : List Byte) (h0 : 0 ∉ arg) (he : EQ ∈ arg) (o : Nat) :
    find_kv env arg ≠ some (some o) := by
  rw [find_kv_eq_loop env arg h0]
  exact find_kv_loop_self env arg h0 he _ 0 o

/-! ## `cmd_set` on a C string -/

theorem head_eq_iff (s : List Byte) :
    (EQ ∈ s ∧ (s.takeWhile (fun b => b != EQ)).length = 0) ↔ s.head? = some EQ := by
  cases s with
  | nil => simp
  | cons b m =>
    by_cases hb : b = EQ
    · subst hb; simp
    · have : ¬ EQ = b := fun e => hb e.symm
      simp [List.takeWhile_cons, hb]

theorem strchr_cstr (s : List Byte) (h0 : 0 ∉ s) :
    strchr (cstr s) EQ =
      some (if EQ ∈ s then some (s.takeWhile (fun b => b != EQ)).length else none) := by
  unfold cstr; exact strchr_append s [] h0

/-- The argument check of `cmd_set`, `!eq || eq == arg`, on a C string. -/
theorem cmd_set_check (s : List Byte) (h0 : 0 ∉ s) :
    (∃ eq, strchr (cstr s) EQ = some eq ∧ (eq = none ∨ eq = some 0)) ↔
      (EQ ∉ s ∨ s.head? = some EQ) := by
  rw [strchr_cstr s h0]
  by_cases hin : EQ ∈ s
  · have := head_eq_iff s
    simp only [hin, true_and] at this
    simp [hin, this]
  · simp [hin]

theorem cmd_set_invalid (env s : List Byte) (h0 : 0 ∉ s) (h : EQ ∉ s ∨ s.head? = some EQ) :
    cmd_set env s = some (Exit.var_value_required, env) := by
  obtain ⟨eq, h1, h2⟩ := (cmd_set_check s h0).2 h
  unfold cmd_set
  rw [h1, Option.some_bind, if_pos h2]

/-- A valid argument: `cmd_set` looks the whole argument up, finds nothing, and
goes on to the room check with the block as it was. -/
theorem cmd_set_valid (env s : List Byte) (h0 : 0 ∉ s) (he : EQ ∈ s) (hh : s.head? ≠ some EQ) :
    cmd_set env s =
      (find_kv env s).bind fun _ =>
        (room_left env (s.length + 1)).bind fun room =>
          if !room then some (Exit.env_block_full, env)
          else (data_end env).bind fun off =>
            (memcpy env off (cstr s) (s.length + 1)).map fun env2 => (Exit.returned, env2) := by
  have hne : ¬ (EQ ∉ s ∨ s.head? = some EQ) := by simp [he, hh]
  have hchk := (cmd_set_check s h0).not.2 hne
  unfold cmd_set
  rw [strchr_cstr s h0] at hchk ⊢
  simp only [he, if_true] at hchk ⊢
  rw [Option.some_bind, if_neg (fun hc => hchk ⟨_, rfl, hc⟩)]
  cases hf : find_kv env s with
  | none => rfl
  | some old =>
    cases old with
    | some o => exact absurd hf (find_kv_self env s h0 he o)
    | none => simp [strlen_cstr s h0]

theorem cmd_set_never_invalid (env s env1 : List Byte) (h0 : 0 ∉ s) (he : EQ ∈ s)
    (hh : s.head? ≠ some EQ) : cmd_set env s ≠ some (Exit.var_value_required, env1) := by
  rw [cmd_set_valid env s h0 he hh]
  intro h
  cases hf : find_kv env s with
  | none => simp [hf] at h
  | some old =>
    cases hr : room_left env (s.length + 1) with
    | none => simp [hf, hr] at h
    | some room =>
      cases room with
      | false => simp [hf, hr] at h
      | true =>
        simp only [hf, hr, Option.some_bind] at h
        cases hd : data_end env with
        | none => simp [hd] at h
        | some off =>
          cases hm : memcpy env off (cstr s) (s.length + 1) with
          | none => simp [hd, hm] at h
          | some e => simp [hd, hm] at h

theorem cmd_set_full_unchanged (env s env1 : List Byte) (h0 : 0 ∉ s)
    (h : cmd_set env s = some (Exit.env_block_full, env1)) : env1 = env := by
  by_cases hv : EQ ∉ s ∨ s.head? = some EQ
  · rw [cmd_set_invalid env s h0 hv] at h
    simp at h
  · have he : EQ ∈ s := by by_contra hc; exact hv (Or.inl hc)
    have hh : s.head? ≠ some EQ := fun hc => hv (Or.inr hc)
    rw [cmd_set_valid env s h0 he hh] at h
    cases hf : find_kv env s with
    | none => simp [hf] at h
    | some old =>
      cases hr : room_left env (s.length + 1) with
      | none => simp [hf, hr] at h
      | some room =>
        cases room with
        | false =>
          simp [hf, hr] at h
          exact h.symm
        | true =>
          simp only [hf, hr, Option.some_bind] at h
          cases hd : data_end env with
          | none => simp [hd] at h
          | some off =>
            cases hm : memcpy env off (cstr s) (s.length + 1) with
            | none => simp [hd, hm] at h
            | some e => simp [hd, hm] at h

/-- `cmd_set` with a valid argument on a block that holds the records `recs`:
the record is appended when there is room, and the block is left as it was
when there is none. -/
theorem cmd_set_scans {env : List Byte} {recs : List (List Byte)} {tail : List Byte}
    (h : Scans env recs tail) (s : List Byte) (h0 : 0 ∉ s) (he : EQ ∈ s)
    (hh : s.head? ≠ some EQ) :
    cmd_set env s =
      if (encode recs).length + (s.length + 1) < blk_size env then
        some (Exit.returned, encode recs ++ (s ++ 0 :: tail.drop (s.length + 1)))
      else some (Exit.env_block_full, env) := by
  have hno : ∀ r ∈ recs, record_key r ≠ some s := fun r _ hk => record_key_no_eq hk he
  rw [cmd_set_valid env s h0 he hh, scans_find_kv_none h s h0 hno, Option.some_bind]
  unfold room_left
  rw [scans_data_end h, Option.map_some', Option.some_bind]
  by_cases hroom : (encode recs).length + (s.length + 1) < blk_size env
  · have hl := scans_length h
    unfold blk_size at hroom
    have := memcpy_append (encode recs) tail s (by omega)
    rw [← h.1] at this
    simp [hroom, blk_size, this]
  · simp [hroom]

/-! ## `cmd_unset` on a block that holds records -/

/-- The first record with a given property splits the list of records. -/
theorem split_first (p : List Byte → Bool) (l : List (List Byte)) (h : ∃ x ∈ l, p x = true) :
    ∃ pre r post, l = pre ++ r :: post ∧ (∀ x ∈ pre, p x = false) ∧ p r = true ∧
      l.find? p = some r ∧ l.eraseP p = pre ++ post := by
  induction l with
  | nil => simp at h
  | cons a t ih =>
    by_cases ha : p a = true
    · exact ⟨[], a, t, rfl, by simp, ha, by simp [ha], by simp [List.eraseP_cons, ha]⟩
    · have ht : ∃ x ∈ t, p x = true := by
        obtain ⟨x, hx, hp⟩ := h
        rcases List.mem_cons.1 hx with rfl | hx
        · exact absurd hp ha
        · exact ⟨x, hx, hp⟩
      obtain ⟨pre, r, post, h1, h2, h3, h4, h5⟩ := ih ht
      refine ⟨a :: pre, r, post, by simp [h1], ?_, h3, ?_, ?_⟩
      · intro x hx
        rcases List.mem_cons.1 hx with rfl | hx
        · simpa using ha
        · exact h2 x hx
      · simp [List.find?_cons, ha, h4]
      · simp [List.eraseP_cons, ha, h5]

theorem has_key_false {key r : List Byte} : has_key key r = false ↔ record_key r ≠ some key := by
  simp [has_key]

theorem has_key_true {key r : List Byte} : has_key key r = true ↔ record_key r = some key := by
  simp [has_key]

/-- `cmd_unset` removes the first record with the key and moves everything
behind it to the front; the bytes freed at the end of the block are zero. -/
theorem cmd_unset_scans {env : List Byte} {pre post : List (List Byte)} {r tail : List Byte}
    (h : Scans env (pre ++ r :: post) tail) (key : List Byte) (hk : 0 ∉ key)
    (hno : ∀ x ∈ pre, record_key x ≠ some key) (hkey : record_key r = some key) :
    cmd_unset env key =
        some (encode (pre ++ post) ++ (tail ++ List.replicate (r.length + 1) 0)) ∧
      Scans (encode (pre ++ post) ++ (tail ++ List.replicate (r.length + 1) 0)) (pre ++ post)
        (tail ++ List.replicate (r.length + 1) 0) := by
  have hr := h.2.2 r (by simp)
  have henv : env = encode pre ++ (r ++ 0 :: (encode post ++ tail)) := by
    rw [h.1]; simp [encode_append, encode]
  constructor
  · unfold cmd_unset
    rw [henv, find_kv_found pre r _ key hk (fun x hx => h.2.2 x (by simp [hx])) hr.1 hr.2 hno hkey,
      Option.some_bind]
    simp only [remove_record_bytes (encode pre) r (encode post ++ tail) hr.2]
    simp [encode_append]
  · refine ⟨rfl, ?_, ?_⟩
    · cases tail with
      | nil => rfl
      | cons b t => simpa using h.2.1
    · intro x hx
      apply h.2.2 x
      rcases List.mem_append.1 hx with hx | hx
      · simp [hx]
      · simp [hx]

theorem cmd_unset_missing {env : List Byte} {recs : List (List Byte)} {tail : List Byte}
    (h : Scans env recs tail) (key : List Byte) (hk : 0 ∉ key)
    (hno : ∀ r ∈ recs, record_key r ≠ some key) : cmd_unset env key = some env := by
  unfold cmd_unset
  rw [scans_find_kv_none h key hk hno]
  rfl

theorem record_key_join (K V : List Byte) (hK : EQ ∉ K) : record_key (K ++ EQ :: V) = some K := by
  unfold record_key
  rw [if_pos (by simp)]
  congr 1
  induction K with
  | nil => simp
  | cons b m ih =>
    have hb : b ≠ EQ := fun e => hK (by simp [e])
    have hm : EQ ∉ m := fun e => hK (by simp [e])
    simp [List.takeWhile_cons, hb, ih hm]

theorem cmd_get_found (A K V rest : List Byte) (hK0 : 0 ∉ K) (hV0 : 0 ∉ V) (hKe : EQ ∉ K)
    (hf : find_kv (A ++ (K ++ EQ :: V ++ 0 :: rest)) K = some (some A.length)) :
    cmd_get (A ++ (K ++ EQ :: V ++ 0 :: rest)) K = some (some V) := by
  have h0 : 0 ∉ K ++ EQ :: V := by
    simp only [List.mem_append, List.mem_cons, not_or]
    exact ⟨hK0, by decide, hV0⟩
  have htw : (K ++ EQ :: V).takeWhile (fun b => b != EQ) = K := by
    have := record_key_join K V hKe
    unfold record_key at this
    rw [if_pos (by simp)] at this
    exact Option.some.inj this
  have hd : (A ++ (K ++ EQ :: V ++ 0 :: rest)).drop (A.length + K.length + 1) = V ++ 0 :: rest := by
    rw [Nat.add_assoc, ← List.drop_drop, List.drop_left]
    have : K ++ EQ :: V ++ 0 :: rest = (K ++ [EQ]) ++ (V ++ 0 :: rest) := by simp
    rw [this]
    exact List.drop_left' (by simp)
  unfold cmd_get
  rw [hf, Option.some_bind]
  simp only [List.drop_left]
  rw [strchr_append (K ++ EQ :: V) rest h0, if_pos (by simp), htw, Option.some_bind]
  simp only [hd, printf_s_append V rest hV0, Option.map_some']

/-! ## the claims -/

/-- C1 (the code does not do this): on a blank block of 16 bytes `set X=1`
followed by `set X=2` returns twice and leaves two records with key `X`, the
old one first; `get X` prints the old value `1`. -/
theorem set_twice_leaves_two_records :
    cmd_set (List.replicate 16 0) [88, 61, 49] =
      some (Exit.returned, [88, 61, 49, 0] ++ List.replicate 12 0) ∧
    cmd_set ([88, 61, 49, 0] ++ List.replicate 12 0) [88, 61, 50] =
      some (Exit.returned, [88, 61, 49, 0, 88, 61, 50, 0] ++ List.replicate 8 0) ∧
    cmd_list ([88, 61, 49, 0, 88, 61, 50, 0] ++ List.replicate 8 0) =
      some [[88, 61, 49], [88, 61, 50]] ∧
    ([[88, 61, 49], [88, 61, 50]].filter (has_key [88])).length = 2 ∧
    cmd_get ([88, 61, 49, 0, 88, 61, 50, 0] ++ List.replicate 8 0) [88] = some (some [49]) := by
  decide

/-- C2 (the code does not do this): on a blank block of 16 bytes `set A=1`,
`set B=2`, `set A=3` leaves the three records `A=1`, `B=2`, `A=3` in this order,
so the keys enumerated are `[A, B, A]` and not `[B, A]`. -/
theorem set_again_keeps_old_position :
    cmd_set (List.replicate 16 0) [65, 61, 49] =
      some (Exit.returned, [65, 61, 49, 0] ++ List.replicate 12 0) ∧
    cmd_set ([65, 61, 49, 0] ++ List.replicate 12 0) [66, 61, 50] =
      some (Exit.returned, [65, 61, 49, 0, 66, 61, 50, 0] ++ List.replicate 8 0) ∧
    cmd_set ([65, 61, 49, 0, 66, 61, 50, 0] ++ List.replicate 8 0) [65, 61, 51] =
      some (Exit.returned,
        [65, 61, 49, 0, 66, 61, 50, 0, 65, 61, 51, 0] ++ List.replicate 4 0) ∧
    cmd_list ([65, 61, 49, 0, 66, 61, 50, 0, 65, 61, 51, 0] ++ List.replicate 4 0) =
      some [[65, 61, 49], [66, 61, 50], [65, 61, 51]] ∧
    [[65, 61, 49], [66, 61, 50], [65, 61, 51]].map record_key =
      [some [65], some [66], some [65]] := by
  decide

/-- C3: on a well-formed block in which the key `K` (non-empty, without `'='`) is
absent, and with `used_length + len ("K=V") + 1 < capacity`, `set K=V` returns, and
afterwards the lookup of `K` finds the new record (at the old used length) and
`get K` prints exactly `V`. -/
theorem set_then_get (env : List Byte) (recs : List (List Byte)) (K V : List Byte) (u : Nat)
    (hwf : WellFormed env recs) (hK : K ≠ []) (hKe : EQ ∉ K) (hK0 : 0 ∉ K) (hV0 : 0 ∉ V)
    (habs : ∀ r ∈ recs, record_key r ≠ some K) (hu : data_end env = some u)
    (hroom : u + (K ++ EQ :: V).length + 1 < blk_size env) :
    ∃ env1, cmd_set env (K ++ EQ :: V) = some (Exit.returned, env1) ∧
      find_kv env1 K = some (some u) ∧ cmd_get env1 K = some (some V) := by
  have hs := wellFormed_scans hwf
  have hu' : u = (encode recs).length := by
    rw [scans_data_end hs] at hu; exact (Option.some.inj hu).symm
  subst hu'
  have h0 : 0 ∉ K ++ EQ :: V := by
    simp only [List.mem_append, List.mem_cons, not_or]
    exact ⟨hK0, by decide, hV0⟩
  have hh : (K ++ EQ :: V).head? ≠ some EQ := by
    cases K with
    | nil => exact absurd rfl hK
    | cons b m =>
      simp only [List.cons_append, List.head?_cons, ne_eq, Option.some.injEq]
      exact fun e => hKe (by simp [e])
  have hf := find_kv_found recs (K ++ EQ :: V)
    ((List.replicate (env.length - (encode recs).length) 0).drop ((K ++ EQ :: V).length + 1))
    K hK0 hs.2.2 (by simp) h0 habs (record_key_join K V hKe)
  refine ⟨_, ?_, hf, ?_⟩
  · rw [cmd_set_scans hs (K ++ EQ :: V) h0 (by simp) hh, if_pos (by omega)]
  · exact cmd_get_found (encode recs) K V _ hK0 hV0 hKe hf

/-- Witness for C3: the block of 16 bytes holding `A=1`, and
`set B==2` (key `B`, value `=2`). -/
theorem set_then_get_witness :
    WellFormed ([65, 61, 49, 0] ++ List.replicate 12 0) [[65, 61, 49]] ∧
    ∃ env1, cmd_set ([65, 61, 49, 0] ++ List.replicate 12 0) ([66] ++ EQ :: [61, 50]) =
        some (Exit.returned, env1) ∧
      find_kv env1 [66] = some (some 4) ∧ cmd_get env1 [66] = some (some [61, 50]) :=
  ⟨by decide,
   set_then_get ([65, 61, 49, 0] ++ List.replicate 12 0) [[65, 61, 49]] [66] [61, 50] 4
    (by decide) (by decide) (by decide) (by decide) (by decide) (by decide) (by decide)
    (by decide)⟩

/-- C4: `room_left (env, n)` is true exactly when `data_end (env) + n < blk_size`;
on a well-formed block `set s` with a valid argument `s` returns exactly when
`used_length + strlen (s) + 1 < capacity`, and otherwise exits with "env block
full". -/
theorem capacity_boundary :
    (∀ (env : List Byte) (need u : Nat), data_end env = some u →
      (room_left env need = some true ↔ u + need < blk_size env)) ∧
    (∀ (env : List Byte) (recs : List (List Byte)) (s : List Byte) (u : Nat),
      WellFormed env recs → 0 ∉ s → EQ ∈ s → s.head? ≠ some EQ → data_end env = some u →
      ((∃ env1, cmd_set env s = some (Exit.returned, env1)) ↔ u + s.length + 1 < blk_size env) ∧
      (¬ (u + s.length + 1 < blk_size env) →
        cmd_set env s = some (Exit.env_block_full, env))) := by
  constructor
  · intro env need u hu
    simp [room_left, hu]
  · intro env recs s u hwf h0 he hh hu
    have hs := wellFormed_scans hwf
    have hu' : u = (encode recs).length := by
      rw [scans_data_end hs] at hu; exact (Option.some.inj hu).symm
    subst hu'
    rw [cmd_set_scans hs s h0 he hh]
    by_cases hroom : (encode recs).length + s.length + 1 < blk_size env
    · rw [if_pos (by omega)]
      exact ⟨⟨fun _ => hroom, fun _ => ⟨_, rfl⟩⟩, fun hn => absurd hroom hn⟩
    · rw [if_neg (by omega)]
      refine ⟨⟨?_, fun h => absurd h hroom⟩, fun _ => rfl⟩
      rintro ⟨env1, h⟩
      simp at h

/-- Witness for C4, capacity 16: on the blank block the record
`ABCDEFGHIJKL=1` (14 bytes and the terminator, used length 15) is accepted and
the record `ABCDEFGHIJKLM=1` (used length 16) is rejected. -/
theorem capacity_boundary_witness :
    (∃ env1, cmd_set (List.replicate 16 0)
        [65, 66, 67, 68, 69, 70, 71, 72, 73, 74, 75, 76, 61, 49] =
      some (Exit.returned, env1)) ∧
    cmd_set (List.replicate 16 0) [65, 66, 67, 68, 69, 70, 71, 72, 73, 74, 75, 76, 77, 61, 49] =
      some (Exit.env_block_full, List.replicate 16 0) :=
  ⟨(capacity_boundary.2 (List.replicate 16 0) []
      [65, 66, 67, 68, 69, 70, 71, 72, 73, 74, 75, 76, 61, 49] 0
      (by decide) (by decide) (by decide) (by decide) (by decide)).1.2 (by decide),
   (capacity_boundary.2 (List.replicate 16 0) []
      [65, 66, 67, 68, 69, 70, 71, 72, 73, 74, 75, 76, 77, 61, 49] 0
      (by decide) (by decide) (by decide) (by decide) (by decide)).2 (by decide)⟩

theorem eq_append_replicate (env A : List Byte) (m : Nat) (h : env = A ++ List.replicate m 0) :
    env = A ++ List.replicate (env.length - A.length) 0 := by
  have : env.length - A.length = m := by
    rw [h]; simp
  rw [this]; exact h

/-- C5: on a well-formed block that holds the key `K`, `unset K` removes the
first record with key `K` and keeps the other records in their order; the used
length decreases by the length of that record with its terminator, and the
block is again well-formed (same size, zero bytes after the records). -/
theorem unset_removes_first_record (env : List Byte) (recs : List (List Byte)) (K : List Byte)
    (u : Nat) (hwf : WellFormed env recs) (hK : 0 ∉ K) (hu : data_end env = some u)
    (hpres : ∃ r ∈ recs, record_key r = some K) :
    ∃ env1 r, recs.find? (has_key K) = some r ∧ cmd_unset env K = some env1 ∧
      cmd_list env = some recs ∧ cmd_list env1 = some (recs.eraseP (has_key K)) ∧
      r.length + 1 ≤ u ∧ data_end env1 = some (u - (r.length + 1)) ∧
      env1.length = env.length ∧ WellFormed env1 (recs.eraseP (has_key K)) := by
  have hs := wellFormed_scans hwf
  have hu' : u = (encode recs).length := by
    rw [scans_data_end hs] at hu; exact (Option.some.inj hu).symm
  have hl := scans_length hs
  have hex : ∃ x ∈ recs, has_key K x = true := by
    obtain ⟨x, hx, hk⟩ := hpres
    exact ⟨x, hx, has_key_true.2 hk⟩
  obtain ⟨pre, r, post, h1, h2, h3, h4, h5⟩ := split_first (has_key K) recs hex
  have hlist := scans_cmd_list hs
  subst h1
  obtain ⟨c1, c2⟩ := cmd_unset_scans hs K hK (fun x hx => has_key_false.1 (h2 x hx))
    (has_key_true.1 h3)
  have hlen : (encode (pre ++ r :: post)).length =
      (encode (pre ++ post)).length + (r.length + 1) := by
    simp only [encode_append, encode, List.length_append, List.length_cons]; omega
  refine ⟨_, r, h4, c1, hlist, ?_, ?_, ?_, ?_, ?_⟩
  · rw [h5]; exact scans_cmd_list c2
  · omega
  · rw [scans_data_end c2, hu', hlen]; simp
  · rw [hl]
    simp only [hlen, List.length_append, List.length_replicate]
    omega
  · rw [h5]
    refine ⟨?_, ?_, ?_⟩
    · apply eq_append_replicate _ _
        ((env.length - (encode (pre ++ r :: post)).length) + (r.length + 1))
      simp [List.replicate_add]
    · intro x hx
      apply hwf.2.1 x
      rcases List.mem_append.1 hx with hx | hx
      · simp [hx]
      · simp [hx]
    · have hsub : (pre ++ post).Sublist (pre ++ r :: post) :=
        List.Sublist.append (List.Sublist.refl pre) (List.sublist_cons_self r post)
      exact hwf.2.2.sublist (hsub.map record_key)

/-- Witness for C5, capacity 32: the block holding `A=1`
and `B=22`; after `unset A` the block is `B=22` followed by zero bytes from
offset 5 on. -/
theorem unset_removes_first_record_witness :
    cmd_unset ([65, 61, 49, 0, 66, 61, 50, 50, 0] ++ List.replicate 23 0) [65] =
      some ([66, 61, 50, 50, 0] ++ List.replicate 27 0) ∧
    ∃ env1 r, [[65, 61, 49], [66, 61, 50, 50]].find? (has_key [65]) = some r ∧
      cmd_unset ([65, 61, 49, 0, 66, 61, 50, 50, 0] ++ List.replicate 23 0) [65] = some env1 ∧
      cmd_list ([65, 61, 49, 0, 66, 61, 50, 50, 0] ++ List.replicate 23 0) =
        some [[65, 61, 49], [66, 61, 50, 50]] ∧
      cmd_list env1 = some ([[65, 61, 49], [66, 61, 50, 50]].eraseP (has_key [65])) ∧
      r.length + 1 ≤ 9 ∧ data_end env1 = some (9 - (r.length + 1)) ∧
      env1.length = ([65, 61, 49, 0, 66, 61, 50, 50, 0] ++ List.replicate 23 0).length ∧
      WellFormed env1 ([[65, 61, 49], [66, 61, 50, 50]].eraseP (has_key [65])) :=
  ⟨by decide,
   unset_removes_first_record ([65, 61, 49, 0, 66, 61, 50, 50, 0] ++ List.replicate 23 0)
    [[65, 61, 49], [66, 61, 50, 50]] [65] 9 (by decide) (by decide) (by decide)
    ⟨[65, 61, 49], by decide, by decide⟩⟩

/-- C6: on a block whose scan stays inside the buffer (`cmd_list` yields the
records `recs`) and for a key `K` that no record has, `find_kv` returns `NULL`
and `cmd_unset` leaves the block byte for byte as it was. -/
theorem missing_key_safe (env : List Byte) (recs : List (List Byte)) (K : List Byte)
    (hscan : cmd_list env = some recs) (hK : 0 ∉ K)
    (hno : ∀ r ∈ recs, record_key r ≠ some K) :
    find_kv env K = some none ∧ cmd_unset env K = some env := by
  obtain ⟨tail, hs⟩ := cmd_list_scans hscan
  exact ⟨scans_find_kv_none hs K hK hno, cmd_unset_missing hs K hK hno⟩

/-- Witness for C6: a block of 8 bytes holding `A=1` and, behind
the zero byte the scan stops at, bytes that are not zero; the key is `NOPE`. -/
theorem missing_key_safe_witness :
    cmd_list [65, 61, 49, 0, 0, 90, 90, 0] = some [[65, 61, 49]] ∧
    find_kv [65, 61, 49, 0, 0, 90, 90, 0] [78, 79, 80, 69] = some none ∧
    cmd_unset [65, 61, 49, 0, 0, 90, 90, 0] [78, 79, 80, 69] =
      some [65, 61, 49, 0, 0, 90, 90, 0] :=
  ⟨by decide,
   missing_key_safe [65, 61, 49, 0, 0, 90, 90, 0] [[65, 61, 49]] [78, 79, 80, 69]
    (by decide) (by decide) (by decide)⟩

/-- C7: on a well-formed block in which exactly one record has the key `K`,
`unset K` twice gives the same block as `unset K` once. -/
theorem unset_idempotent (env : List Byte) (recs : List (List Byte)) (K : List Byte)
    (hwf : WellFormed env recs) (hK : 0 ∉ K) (honce : recs.countP (has_key K) = 1) :
    ∃ env1, cmd_unset env K = some env1 ∧ cmd_unset env1 K = some env1 := by
  have hs := wellFormed_scans hwf
  have hex : ∃ x ∈ recs, has_key K x = true :=
    List.countP_pos_iff.1 (by omega)
  obtain ⟨pre, r, post, h1, h2, h3, _, _⟩ := split_first (has_key K) recs hex
  subst h1
  have hpre : List.countP (has_key K) pre = 0 :=
    List.countP_eq_zero.2 (fun x hx => by simp [h2 x hx])
  have hpost : List.countP (has_key K) post = 0 := by
    rw [List.countP_append, List.countP_cons, hpre, h3] at honce
    simp at honce
    exact List.countP_eq_zero.2 (fun x hx => by simpa using honce x hx)
  obtain ⟨c1, c2⟩ := cmd_unset_scans hs K hK (fun x hx => has_key_false.1 (h2 x hx))
    (has_key_true.1 h3)
  refine ⟨_, c1, cmd_unset_missing c2 K hK ?_⟩
  intro x hx
  apply has_key_false.1
  rcases List.mem_append.1 hx with hx | hx
  · exact h2 x hx
  · have := List.countP_eq_zero.1 hpost x hx
    simpa using this

/-- Witness for C7: the block of 16 bytes holding `A=1` and `B=2`,
key `A`. -/
theorem unset_idempotent_witness :
    WellFormed ([65, 61, 49, 0, 66, 61, 50, 0] ++ List.replicate 8 0)
      [[65, 61, 49], [66, 61, 50]] ∧
    ∃ env1, cmd_unset ([65, 61, 49, 0, 66, 61, 50, 0] ++ List.replicate 8 0) [65] = some env1 ∧
      cmd_unset env1 [65] = some env1 :=
  ⟨by decide,
   unset_idempotent ([65, 61, 49, 0, 66, 61, 50, 0] ++ List.replicate 8 0)
    [[65, 61, 49], [66, 61, 50]] [65] (by decide) (by decide) (by decide)⟩

theorem wellFormed_cmd_list {env : List Byte} {recs : List (List Byte)}
    (h : WellFormed env recs) : cmd_list env = some recs :=
  scans_cmd_list (wellFormed_scans h)

theorem record_key_some {r K : List Byte} (h : record_key r = some K) :
    EQ ∈ r ∧ r.takeWhile (fun b => b != EQ) = K := by
  unfold record_key at h
  by_cases he : EQ ∈ r
  · rw [if_pos he] at h
    exact ⟨he, Option.some.inj h⟩
  · rw [if_neg he] at h
    cases h

/-- C8: on every block whose scan stays inside the buffer (`cmd_list` yields the
records `recs`; every well-formed block is one, and so is a block with records
without `'='` or with a key held twice), `find_kv` returns the offset of the
first record, in scan order, whose bytes before its first `'='` are exactly `K`:
records in front of it that have another key, or no `'='` at all, are passed
over. What `find_kv` returns is always the start of such a first record, and
it returns `NULL` exactly when no record has the key `K`. -/
theorem find_kv_first_match (env : List Byte) (recs : List (List Byte)) (K : List Byte)
    (hscan : cmd_list env = some recs) (hK : 0 ∉ K) :
    (∀ pre r post, recs = pre ++ r :: post → (∀ x ∈ pre, record_key x ≠ some K) →
      record_key r = some K → find_kv env K = some (some (encode pre).length)) ∧
    (∀ o, find_kv env K = some (some o) →
      ∃ pre r post, recs = pre ++ r :: post ∧ o = (encode pre).length ∧
        (∀ x ∈ pre, record_key x ≠ some K) ∧ EQ ∈ r ∧
        r.takeWhile (fun b => b != EQ) = K) ∧
    (find_kv env K = some none ↔ ∀ r ∈ recs, record_key r ≠ some K) ∧
    (∀ r ∈ recs, EQ ∉ r → record_key r ≠ some K) := by
  obtain ⟨tail, hs⟩ := cmd_list_scans hscan
  have hfound : ∀ pre r post, recs = pre ++ r :: post → (∀ x ∈ pre, record_key x ≠ some K) →
      record_key r = some K → find_kv env K = some (some (encode pre).length) := by
    intro pre r post h1 hno hkey
    subst h1
    have hr := hs.2.2 r (by simp)
    have henv : env = encode pre ++ (r ++ 0 :: (encode post ++ tail)) := by
      conv_lhs => rw [hs.1]
      simp [encode_append, encode]
    rw [henv]
    exact find_kv_found pre r _ K hK (fun x hx => hs.2.2 x (by simp [hx])) hr.1 hr.2 hno hkey
  refine ⟨hfound, ?_, ⟨?_, scans_find_kv_none hs K hK⟩, ?_⟩
  · intro o ho
    have hex : ∃ x ∈ recs, has_key K x = true := by
      by_contra hc
      have hno : ∀ r ∈ recs, record_key r ≠ some K := by
        intro r hr hkr
        exact hc ⟨r, hr, has_key_true.2 hkr⟩
      rw [scans_find_kv_none hs K hK hno] at ho
      simp at ho
    obtain ⟨pre, r, post, h1, h2, h3, _, _⟩ := split_first (has_key K) recs hex
    have hpre : ∀ x ∈ pre, record_key x ≠ some K := fun x hx => has_key_false.1 (h2 x hx)
    have hf := hfound pre r post h1 hpre (has_key_true.1 h3)
    rw [hf] at ho
    have ho' : (encode pre).length = o := by simpa using ho
    obtain ⟨k1, k2⟩ := record_key_some (has_key_true.1 h3)
    exact ⟨pre, r, post, h1, ho'.symm, hpre, k1, k2⟩
  · intro hnone r hr hkey
    obtain ⟨pre, r1, post, h1, h2, h3, _, _⟩ :=
      split_first (has_key K) recs ⟨r, hr, has_key_true.2 hkey⟩
    have := hfound pre r1 post h1 (fun x hx => has_key_false.1 (h2 x hx)) (has_key_true.1 h3)
    rw [hnone] at this
    simp at this
  · intro r _ hne hkey
    exact hne (record_key_some hkey).1

/-- Witness for C8: the block of 16 bytes holding the records `A` (no `'='`),
`AB=1`, `A=2` and `A=3`. The key `A` is found at offset 7, the start of `A=2`: the
record `A` without `'='`, the record `AB=1` and the later record `A=3` are not
the one returned. The key `B` is not found. -/
theorem find_kv_first_match_witness :
    cmd_list [65, 0, 65, 66, 61, 49, 0, 65, 61, 50, 0, 65, 61, 51, 0, 0] =
      some [[65], [65, 66, 61, 49], [65, 61, 50], [65, 61, 51]] ∧
    find_kv [65, 0, 65, 66, 61, 49, 0, 65, 61, 50, 0, 65, 61, 51, 0, 0] [65] =
      some (some (encode [[65], [65, 66, 61, 49]]).length) ∧
    (encode [[65], [65, 66, 61, 49]]).length = 7 ∧
    find_kv [65, 0, 65, 66, 61, 49, 0, 65, 61, 50, 0, 65, 61, 51, 0, 0] [66] = some none :=
  ⟨by decide,
   (find_kv_first_match [65, 0, 65, 66, 61, 49, 0, 65, 61, 50, 0, 65, 61, 51, 0, 0]
      [[65], [65, 66, 61, 49], [65, 61, 50], [65, 61, 51]] [65] (by decide) (by decide)).1
      [[65], [65, 66, 61, 49]] [65, 61, 50] [[65, 61, 51]] (by decide) (by decide) (by decide),
   by decide,
   (find_kv_first_match [65, 0, 65, 66, 61, 49, 0, 65, 61, 50, 0, 65, 61, 51, 0, 0]
      [[65], [65, 66, 61, 49], [65, 61, 50], [65, 61, 51]] [66] (by decide)
      (by decide)).2.2.1.2 (by decide)⟩

/-- C9: for every block and every argument `s`, `set s` exits with
"set: VAR=value required" exactly when `s` has no `'='` or starts with `'='`, and
the block is then byte for byte as it was. -/
theorem set_invalid_argument (env s : List Byte) (h0 : 0 ∉ s) :
    ((∃ env1, cmd_set env s = some (Exit.var_value_required, env1)) ↔
      (EQ ∉ s ∨ s.head? = some EQ)) ∧
    (∀ env1, cmd_set env s = some (Exit.var_value_required, env1) → env1 = env) := by
  by_cases hv : EQ ∉ s ∨ s.head? = some EQ
  · have := cmd_set_invalid env s h0 hv
    refine ⟨⟨fun _ => hv, fun _ => ⟨env, this⟩⟩, ?_⟩
    intro env1 h
    rw [this] at h
    simp at h
    exact h.symm
  · have he : EQ ∈ s := by by_contra hc; exact hv (Or.inl hc)
    have hh : s.head? ≠ some EQ := fun hc => hv (Or.inr hc)
    refine ⟨⟨?_, fun h => absurd h hv⟩, ?_⟩
    · rintro ⟨env1, h⟩
      exact absurd h (cmd_set_never_invalid env s env1 h0 he hh)
    · intro env1 h
      exact absurd h (cmd_set_never_invalid env s env1 h0 he hh)

/-- Witness for C9: the block of 8 bytes holding `A=1` and the
argument `=1`. -/
theorem set_invalid_argument_witness :
    cmd_set ([65, 61, 49, 0] ++ List.replicate 4 0) [61, 49] =
      some (Exit.var_value_required, [65, 61, 49, 0] ++ List.replicate 4 0) ∧
    ((∃ env1, cmd_set ([65, 61, 49, 0] ++ List.replicate 4 0) [61, 49] =
        some (Exit.var_value_required, env1)) ↔
      (EQ ∉ [61, 49] ∨ [61, 49].head? = some EQ)) ∧
    (∀ env1, cmd_set ([65, 61, 49, 0] ++ List.replicate 4 0) [61, 49] =
      some (Exit.var_value_required, env1) → env1 = [65, 61, 49, 0] ++ List.replicate 4 0) :=
  ⟨by decide, set_invalid_argument ([65, 61, 49, 0] ++ List.replicate 4 0) [61, 49] (by decide)⟩

/-- C10 (the code does not do this): whenever `cmd_set` exits with "env block
full", the block is byte for byte as it was before the call, so every record it
held, the one with the key of the argument included, is still there. -/
theorem set_full_leaves_block (env s env1 : List Byte) (h0 : 0 ∉ s)
    (h : cmd_set env s = some (Exit.env_block_full, env1)) :
    env1 = env ∧ cmd_list env1 = cmd_list env := by
  have := cmd_set_full_unchanged env s env1 h0 h
  exact ⟨this, by rw [this]⟩

/-- Witness for C10: the block of 8 bytes holding `A=1` and
`set A=234567`; the call exits with "env block full" and the record `A=1` is
still in the block. -/
theorem set_full_leaves_block_witness :
    cmd_set ([65, 61, 49, 0] ++ List.replicate 4 0) [65, 61, 50, 51, 52, 53, 54, 55] =
      some (Exit.env_block_full, [65, 61, 49, 0] ++ List.replicate 4 0) ∧
    cmd_list ([65, 61, 49, 0] ++ List.replicate 4 0) = some [[65, 61, 49]] ∧
    ([65, 61, 49, 0] ++ List.replicate 4 0 = [65, 61, 49, 0] ++ List.replicate 4 0 ∧
      cmd_list ([65, 61, 49, 0] ++ List.replicate 4 0) =
        cmd_list ([65, 61, 49, 0] ++ List.replicate 4 0)) :=
  ⟨by decide, by decide,
   set_full_leaves_block ([65, 61, 49, 0] ++ List.replicate 4 0)
    [65, 61, 50, 51, 52, 53, 54, 55] ([65, 61, 49, 0] ++ List.replicate 4 0)
    (by decide) (by decide)⟩


/-! ## appending a record -/

theorem scans_after_set {env : List Byte} {recs : List (List Byte)} {tail : List Byte}
    (h : Scans env recs tail) (s : List Byte) (h0 : 0 ∉ s) (hne : s ≠ [])
    (ht : (tail.drop (s.length + 1)).headD 0 = 0) :
    Scans (encode recs ++ (s ++ 0 :: tail.drop (s.length + 1))) (recs ++ [s])
      (tail.drop (s.length + 1)) := by
  refine ⟨by simp [encode_append, encode], ht, ?_⟩
  intro r hr
  rcases List.mem_append.1 hr with hr | hr
  · exact h.2.2 r hr
  · have : r = s := by simpa using hr
    subst this
    exact ⟨hne, h0⟩

theorem replicate_headD (n : Nat) : (List.replicate n (0 : Byte)).headD 0 = 0 := by
  cases n <;> rfl

theorem record_value_join (K V : List Byte) (hK : EQ ∉ K) :
    record_value (K ++ EQ :: V) = V := by
  unfold record_value
  induction K with
  | nil => simp
  | cons b m ih =>
    have hb : b ≠ EQ := fun e => hK (by simp [e])
    have hm : EQ ∉ m := fun e => hK (by simp [e])
    simpa [List.dropWhile_cons, hb] using ih hm

/-- C11: on a well-formed block with used length `u` in which the key `K` is
absent, `set K=V` with `u + strlen + 1 < capacity` returns; afterwards the bytes
from offset `u` are the argument followed by a zero byte, the used length is
`u + strlen + 1`, and the enumeration is the old one followed by the new record,
whose key is `K` and whose value is `V`; the block is well-formed again. -/
theorem set_appends_at_used_length (env : List Byte) (recs : List (List Byte))
    (K V : List Byte) (u : Nat)
    (hwf : WellFormed env recs) (hK : K ≠ []) (hKe : EQ ∉ K) (hK0 : 0 ∉ K) (hV0 : 0 ∉ V)
    (habs : ∀ r ∈ recs, record_key r ≠ some K) (hu : data_end env = some u)
    (hroom : u + (K ++ EQ :: V).length + 1 < blk_size env) :
    ∃ env1, cmd_set env (K ++ EQ :: V) = some (Exit.returned, env1) ∧
      (env1.drop u).take ((K ++ EQ :: V).length + 1) = K ++ EQ :: V ++ [0] ∧
      data_end env1 = some (u + (K ++ EQ :: V).length + 1) ∧
      cmd_list env = some recs ∧ cmd_list env1 = some (recs ++ [K ++ EQ :: V]) ∧
      record_key (K ++ EQ :: V) = some K ∧ record_value (K ++ EQ :: V) = V ∧
      WellFormed env1 (recs ++ [K ++ EQ :: V]) := by
  have hs := wellFormed_scans hwf
  have hu' : u = (encode recs).length := by
    rw [scans_data_end hs] at hu; exact (Option.some.inj hu).symm
  subst hu'
  have h0 : 0 ∉ K ++ EQ :: V := by
    simp only [List.mem_append, List.mem_cons, not_or]
    exact ⟨hK0, by decide, hV0⟩
  have hh : (K ++ EQ :: V).head? ≠ some EQ := by
    cases K with
    | nil => exact absurd rfl hK
    | cons b m =>
      simp only [List.cons_append, List.head?_cons, ne_eq, Option.some.injEq]
      exact fun e => hKe (by simp [e])
  have hne : K ++ EQ :: V ≠ [] := by simp
  have hs1 := scans_after_set hs (K ++ EQ :: V) h0 hne
    (by rw [List.drop_replicate]; exact replicate_headD _)
  refine ⟨_, ?_, ?_, ?_, scans_cmd_list hs, scans_cmd_list hs1, record_key_join K V hKe,
    record_value_join K V hKe, ?_, ?_, ?_⟩
  · rw [cmd_set_scans hs (K ++ EQ :: V) h0 (by simp) hh, if_pos (by omega)]
  · rw [List.drop_left]
    have : K ++ EQ :: V ++ 0 :: List.drop ((K ++ EQ :: V).length + 1)
        (List.replicate (env.length - (encode recs).length) 0) =
        (K ++ EQ :: V ++ [0]) ++ List.drop ((K ++ EQ :: V).length + 1)
        (List.replicate (env.length - (encode recs).length) 0) := by simp
    rw [this]
    exact List.take_left' (by simp only [List.length_append, List.length_cons, List.length_nil])
  · rw [scans_data_end hs1]
    simp only [encode_append, encode, List.length_append, List.length_cons, List.length_nil]
    congr 1
  · apply eq_append_replicate _ _
      (env.length - (encode recs).length - ((K ++ EQ :: V).length + 1))
    rw [List.drop_replicate]
    simp [encode_append, encode]
  · intro r hr
    rcases List.mem_append.1 hr with hr | hr
    · exact hwf.2.1 r hr
    · have : r = K ++ EQ :: V := by simpa using hr
      subst this
      exact ⟨h0, by simp, hh⟩
  · rw [List.map_append, List.nodup_append]
    refine ⟨hwf.2.2, by simp, ?_⟩
    intro a ha hb
    have : a = record_key (K ++ EQ :: V) := by simpa using hb
    rw [this, record_key_join K V hKe] at ha
    obtain ⟨r, hr, hk⟩ := List.mem_map.1 ha
    exact habs r hr hk

/-- Witness for C11, capacity 32: the block holding `A=1`, and `set B=22`. -/
theorem set_appends_at_used_length_witness :
    cmd_set (List.replicate 32 0) [65, 61, 49] =
      some (Exit.returned, [65, 61, 49, 0] ++ List.replicate 28 0) ∧
    ∃ env1, cmd_set ([65, 61, 49, 0] ++ List.replicate 28 0) ([66] ++ EQ :: [50, 50]) =
        some (Exit.returned, env1) ∧
      (env1.drop 4).take (([66] ++ EQ :: [50, 50]).length + 1) = [66] ++ EQ :: [50, 50] ++ [0] ∧
      data_end env1 = some (4 + ([66] ++ EQ :: [50, 50]).length + 1) ∧
      cmd_list ([65, 61, 49, 0] ++ List.replicate 28 0) = some [[65, 61, 49]] ∧
      cmd_list env1 = some ([[65, 61, 49]] ++ [[66] ++ EQ :: [50, 50]]) ∧
      record_key ([66] ++ EQ :: [50, 50]) = some [66] ∧
      record_value ([66] ++ EQ :: [50, 50]) = [50, 50] ∧
      WellFormed env1 ([[65, 61, 49]] ++ [[66] ++ EQ :: [50, 50]]) :=
  ⟨by decide,
   set_appends_at_used_length ([65, 61, 49, 0] ++ List.replicate 28 0) [[65, 61, 49]]
    [66] [50, 50] 4 (by decide) (by decide) (by decide) (by decide) (by decide) (by decide)
    (by decide) (by decide)⟩

/-! ## `create` -/

theorem cmd_clear_eq (env : List Byte) : cmd_clear env = some (List.replicate (blk_size env) 0) := by
  simp [cmd_clear, memset, blk_size]

/-- C12 (the code does not do this): the `create` branch writes the 26 bytes of
`header` with its terminator whatever the size of the block. On a block of fewer
than 26 bytes, which line 220 lets through from 8 bytes on, the write runs past
the end of the block; from 26 bytes on the block is the header, its terminator
and zero bytes. -/
theorem main_create_writes_26_bytes (env : List Byte) :
    (blk_size env < 26 → main_create env = none) ∧
    (26 ≤ blk_size env →
      main_create env = some (header ++ List.replicate (blk_size env - 25) 0)) := by
  have hlen : (cstr header).length = 26 := by decide
  have htw : (cstr header).takeWhile (fun b => b != 0) = header := by decide
  unfold main_create
  rw [cmd_clear_eq, Option.some_bind, hlen]
  unfold strncpy
  rw [htw]
  constructor
  · intro h
    rw [if_neg]
    simp only [List.length_replicate, not_and]
    intro h'
    omega
  · intro h
    rw [if_pos ⟨by simpa using h, Or.inl (by omega)⟩]
    have h1 : (header ++ List.replicate 26 0).take 26 = header ++ [0] := by decide
    rw [h1, List.drop_replicate]
    have h2 : blk_size env - 25 = 1 + (blk_size env - 26) := by omega
    rw [h2, List.replicate_add]
    simp

/-- Witness for C12: `create` with `-s 8` writes outside the block of 8 bytes;
with `-s 32` it gives the header followed by 7 zero bytes. -/
theorem main_create_writes_26_bytes_witness :
    8 ≤ blk_size (List.replicate 8 0) ∧ main_create (List.replicate 8 0) = none ∧
    main_create (List.replicate 32 0) =
      some (header ++ List.replicate (blk_size (List.replicate 32 0) - 25) 0) :=
  ⟨by decide, (main_create_writes_26_bytes (List.replicate 8 0)).1 (by decide),
   (main_create_writes_26_bytes (List.replicate 32 0)).2 (by decide)⟩

/-! ## `read_all` and `write_all` -/

theorem memcpy_chunk (pre rest c : List Byte) (h : c.length ≤ rest.length) :
    memcpy (pre ++ rest) pre.length c c.length = some (pre ++ c ++ rest.drop c.length) := by
  unfold memcpy
  rw [if_pos ⟨by simp only [List.length_append]; omega, Nat.le_refl _⟩, List.take_left,
    List.take_length, ← List.drop_drop, List.drop_left]

/-- The loop of `read_all` on a source that yields the chunks `chunks`, which fit
in the rest of the buffer: the chunks are stored one behind the other from `off`
on, and `r` ends as a value that is not negative. -/
theorem read_all_loop_chunks (n : Nat) (chunks : List (List Byte)) :
    ∀ (pre rest : List Byte) (r : Option Int), (∀ c ∈ chunks, c ≠ []) →
      chunks.flatten.length ≤ rest.length → pre.length + rest.length = n →
      (pre.length < n ∨ ∃ k : Nat, r = some (Int.ofNat k)) →
      ∃ k : Nat, read_all_loop n (chunks.map ReadEvent.data) (pre ++ rest) pre.length r =
        some (pre ++ chunks.flatten ++ rest.drop chunks.flatten.length,
          pre.length + chunks.flatten.length, some (Int.ofNat k)) := by
  induction chunks with
  | nil =>
    intro pre rest r _ _ _ hr
    simp only [List.map_nil, read_all_loop, List.flatten_nil, List.append_nil, List.length_nil,
      List.drop_zero, Nat.add_zero]
    by_cases hlt : pre.length < n
    · exact ⟨0, by rw [if_pos hlt]; rfl⟩
    · rcases hr with hr | ⟨k, hk⟩
      · exact absurd hr hlt
      · exact ⟨k, by rw [if_neg hlt, hk]⟩
  | cons c cs ih =>
    intro pre rest r hne hlen hn _
    have hc : c ≠ [] := hne c (by simp)
    have hcpos : 0 < c.length := List.length_pos.2 hc
    simp only [List.flatten_cons, List.length_append] at hlen
    have hlt : pre.length < n := by omega
    have hmin : min c.length (n - pre.length) = c.length := by
      apply Nat.min_eq_left; omega
    simp only [List.map_cons, read_all_loop]
    rw [if_pos hlt, hmin, if_pos hcpos, memcpy_chunk pre rest c (by omega), Option.some_bind]
    obtain ⟨k, hk⟩ := ih (pre ++ c) (rest.drop c.length) (some (Int.ofNat c.length))
      (fun x hx => hne x (by simp [hx])) (by simp only [List.length_drop]; omega)
      (by simp only [List.length_append, List.length_drop]; omega) (Or.inr ⟨c.length, rfl⟩)
    refine ⟨k, ?_⟩
    simp only [List.length_append] at hk
    rw [hk]
    simp only [List.flatten_cons, List.length_append, List.append_assoc, List.drop_drop,
      Nat.add_assoc]

theorem read_all_chunks (chunks : List (List Byte)) (buf : List Byte) (hn : 0 < buf.length)
    (hne : ∀ c ∈ chunks, c ≠ []) (hm : chunks.flatten.length ≤ buf.length) :
    read_all (chunks.map ReadEvent.data) buf buf.length =
      some (Done.done (chunks.flatten ++
        List.replicate (buf.length - chunks.flatten.length) 0)) := by
  obtain ⟨k, hk⟩ := read_all_loop_chunks buf.length chunks [] buf none hne hm (by simp)
    (Or.inl (by simpa using hn))
  simp only [List.nil_append, List.length_nil, Nat.zero_add] at hk
  unfold read_all
  rw [hk, Option.some_bind]
  simp only
  rw [if_neg (by simp)]
  by_cases hlt : chunks.flatten.length < buf.length
  · rw [if_pos hlt]
    unfold memset
    rw [if_pos (by simp only [List.length_append, List.length_drop]; omega)]
    have h1 : (chunks.flatten ++ buf.drop chunks.flatten.length).take chunks.flatten.length =
        chunks.flatten := List.take_left' rfl
    have h2 : (chunks.flatten ++ buf.drop chunks.flatten.length).drop
        (chunks.flatten.length + (buf.length - chunks.flatten.length)) = [] := by
      apply List.drop_of_length_le
      simp only [List.length_append, List.length_drop]; omega
    rw [h1, h2]
    simp
  · rw [if_neg hlt]
    have h0 : buf.length - chunks.flatten.length = 0 := by omega
    have h2 : buf.drop chunks.flatten.length = [] := by
      apply List.drop_of_length_le; omega
    rw [h0, h2]
    simp

/-- The loop of `write_all`: what has been written is the buffer up to `off`, and
the loop is left with `off = n` or with a `w` that is not positive. -/
theorem write_all_loop_some (buf : List Byte) (n : Nat) (fd : List WriteEvent) :
    ∀ (off : Nat) (w : Option Int) (out : List Byte) (st : Nat × Option Int × List Byte),
      out = buf.take off → off ≤ n → write_all_loop buf n fd off w out = some st →
      st.2.2 = buf.take st.1 ∧ st.1 ≤ n ∧
        (st.1 = n ∨ ∃ x : Int, st.2.1 = some x ∧ x ≤ 0) := by
  induction fd with
  | nil =>
    intro off w out st hout hoff h
    simp only [write_all_loop] at h
    by_cases hlt : off < n
    · rw [if_pos hlt] at h
      by_cases hb : off + (n - off) ≤ buf.length
      · rw [if_pos hb] at h
        cases h
        refine ⟨?_, by simp only; omega, Or.inl (by simp only; omega)⟩
        simp only [hout, List.take_add]
      · rw [if_neg hb] at h; cases h
    · rw [if_neg hlt] at h
      cases h
      exact ⟨hout, hoff, Or.inl (by simp only; omega)⟩
  | cons ev fd ih =>
    intro off w out st hout hoff h
    by_cases hlt : off < n
    · cases ev with
      | error =>
        simp only [write_all_loop] at h
        rw [if_pos hlt] at h
        cases h
        exact ⟨hout, hoff, Or.inr ⟨-1, rfl, by decide⟩⟩
      | accept room =>
        simp only [write_all_loop] at h
        rw [if_pos hlt] at h
        by_cases hk : 0 < min room (n - off)
        · rw [if_pos hk] at h
          by_cases hb : off + min room (n - off) ≤ buf.length
          · rw [if_pos hb] at h
            refine ih _ _ _ st ?_ ?_ h
            · simp only [hout, List.take_add]
            · have := Nat.min_le_right room (n - off)
              omega
          · rw [if_neg hb] at h; cases h
        · rw [if_neg hk] at h
          cases h
          exact ⟨hout, hoff, Or.inr ⟨0, rfl, Int.le_refl 0⟩⟩
    · have hst : st = (off, w, out) := by
        cases ev <;> simp only [write_all_loop] at h <;> rw [if_neg hlt] at h <;>
          exact (Option.some.inj h).symm
      subst hst
      exact ⟨hout, hoff, Or.inl (by simp only; omega)⟩

theorem write_all_done (fd : List WriteEvent) (buf out : List Byte)
    (h : write_all fd buf buf.length = some (Done.done out)) : out = buf := by
  unfold write_all at h
  cases hl : write_all_loop buf buf.length fd 0 none [] with
  | none => simp [hl] at h
  | some st =>
    obtain ⟨h1, h2, h3⟩ := write_all_loop_some buf buf.length fd 0 none [] st (by simp)
      (Nat.zero_le _) hl
    rw [hl, Option.some_bind] at h
    cases hw : st.2.1 with
    | none => simp [hw] at h
    | some x =>
      simp only [hw] at h
      by_cases hx : x ≤ 0
      · rw [if_pos hx] at h; simp at h
      · rw [if_neg hx] at h
        have hout : st.2.2 = out := by simpa using h
        rcases h3 with h3 | ⟨y, hy, hy0⟩
        · rw [← hout, h1, h3, List.take_length]
        · rw [hw] at hy
          cases hy
          exact absurd hy0 hx

/-- C13: when `save_env` has written the block `env` (to a file or to the
standard output, in whatever pieces `write` took), the bytes written are `env`
itself; and `load_env` from a source that yields these bytes, in any chunks,
into a buffer of the same size gives a buffer equal to `env`, which `cmd_list`
enumerates as it enumerates `env`. -/
theorem save_load_round_trip (env buf out : List Byte) (wfd : List WriteEvent)
    (chunks : List (List Byte)) (hn : 0 < blk_size env)
    (hsave : save_env (SavePath.opened wfd) env = some (Done.done out) ∨
      save_env (SavePath.stdout wfd) env = some (Done.done out))
    (hne : ∀ c ∈ chunks, c ≠ []) (hch : chunks.flatten = out)
    (hbuf : blk_size buf = blk_size env) :
    out = env ∧
    load_env (LoadPath.opened (chunks.map ReadEvent.data)) buf = some (Done.done env) ∧
    load_env (LoadPath.stdin (chunks.map ReadEvent.data)) buf = some (Done.done env) ∧
    ∀ env1, load_env (LoadPath.opened (chunks.map ReadEvent.data)) buf = some (Done.done env1) →
      cmd_list env1 = cmd_list env := by
  have hout : out = env := by
    rcases hsave with h | h <;> exact write_all_done wfd env out h
  subst hout
  unfold blk_size at hn hbuf
  have hread := read_all_chunks chunks buf (by omega) hne (by rw [hch]; omega)
  rw [hch, hbuf, Nat.sub_self] at hread
  simp only [List.replicate_zero, List.append_nil] at hread
  have hload : load_env (LoadPath.opened (chunks.map ReadEvent.data)) buf =
      some (Done.done out) := by
    simp only [load_env, blk_size, hbuf, hread]
  refine ⟨rfl, hload, by simp only [load_env, blk_size, hbuf, hread], ?_⟩
  intro env1 h1
  rw [hload] at h1
  cases h1
  rfl

/-- Witness for C13: the block of 8 bytes holding `A=1`, written in pieces of 3,
1 and 4 bytes and read back in chunks of 5 and 3 bytes into a buffer of 8 bytes
of other contents. -/
theorem save_load_round_trip_witness :
    save_env (SavePath.opened [WriteEvent.accept 3, WriteEvent.accept 1])
      [65, 61, 49, 0, 0, 0, 0, 0] = some (Done.done [65, 61, 49, 0, 0, 0, 0, 0]) ∧
    load_env (LoadPath.opened ([[65, 61, 49, 0, 0], [0, 0, 0]].map ReadEvent.data))
      [9, 9, 9, 9, 9, 9, 9, 9] = some (Done.done [65, 61, 49, 0, 0, 0, 0, 0]) :=
  ⟨by decide,
   (save_load_round_trip [65, 61, 49, 0, 0, 0, 0, 0] [9, 9, 9, 9, 9, 9, 9, 9]
    [65, 61, 49, 0, 0, 0, 0, 0] [WriteEvent.accept 3, WriteEvent.accept 1]
    [[65, 61, 49, 0, 0], [0, 0, 0]] (by decide) (Or.inl (by decide)) (by decide) (by decide)
    (by decide)).2.1⟩

/-- C17: when the source yields `m` bytes in all before the end of the input, in
any chunks, with `m` at most the size of the block, `read_all` (and so `load_env`,
from a file or from the standard input) leaves these bytes followed by zero
bytes up to the size of the block; a source that yields nothing and a file that
does not exist (`ENOENT`) both give the block of zero bytes. -/
theorem read_all_zero_pads (chunks : List (List Byte)) (buf : List Byte)
    (hn : 0 < blk_size buf) (hne : ∀ c ∈ chunks, c ≠ [])
    (hm : chunks.flatten.length ≤ blk_size buf) :
    read_all (chunks.map ReadEvent.data) buf (blk_size buf) =
      some (Done.done (chunks.flatten ++
        List.replicate (blk_size buf - chunks.flatten.length) 0)) ∧
    load_env (LoadPath.opened (chunks.map ReadEvent.data)) buf =
      some (Done.done (chunks.flatten ++
        List.replicate (blk_size buf - chunks.flatten.length) 0)) ∧
    load_env (LoadPath.stdin (chunks.map ReadEvent.data)) buf =
      some (Done.done (chunks.flatten ++
        List.replicate (blk_size buf - chunks.flatten.length) 0)) ∧
    read_all [] buf (blk_size buf) = some (Done.done (List.replicate (blk_size buf) 0)) ∧
    load_env LoadPath.enoent buf = some (Done.done (List.replicate (blk_size buf) 0)) := by
  have h1 := read_all_chunks chunks buf hn hne hm
  have h2 := read_all_chunks [] buf hn (by simp) (by simp)
  simp only [List.map_nil, List.flatten_nil, List.length_nil, Nat.sub_zero,
    List.nil_append] at h2
  refine ⟨h1, h1, h1, h2, ?_⟩
  simp [load_env, memset, blk_size]

/-- Witness for C17: a source that yields `A=1` and its terminator in chunks of 1
and 3 bytes, read into a buffer of 8 bytes of other contents. -/
theorem read_all_zero_pads_witness :
    read_all ([[65], [61, 49, 0]].map ReadEvent.data) [9, 9, 9, 9, 9, 9, 9, 9] 8 =
      some (Done.done [65, 61, 49, 0, 0, 0, 0, 0]) ∧
    load_env LoadPath.enoent [9, 9, 9, 9, 9, 9, 9, 9] =
      some (Done.done [0, 0, 0, 0, 0, 0, 0, 0]) :=
  ⟨(read_all_zero_pads [[65], [61, 49, 0]] [9, 9, 9, 9, 9, 9, 9, 9] (by decide) (by decide)
      (by decide)).1,
   (read_all_zero_pads [[65], [61, 49, 0]] [9, 9, 9, 9, 9, 9, 9, 9] (by decide) (by decide)
      (by decide)).2.2.2.2⟩

/-! ## blocks whose scan ends -/

theorem data_end_loop_cmd_list (env : List Byte) :
    ∀ (fuel off u : Nat), data_end_loop env fuel off = some u →
      ∃ recs, cmd_list_loop env fuel off = some recs := by
  intro fuel
  induction fuel with
  | zero => intro off u h; simp [data_end_loop] at h
  | succ f ih =>
    intro off u h
    simp only [data_end_loop] at h
    simp only [cmd_list_loop]
    by_cases hc : off < blk_size env ∧ env.getD off 0 ≠ 0
    · rw [if_pos hc] at h
      rw [if_pos hc]
      cases hs : strlen (env.drop off) with
      | none => simp [hs] at h
      | some n =>
        rw [hs, Option.some_bind] at h
        obtain ⟨recs, hr⟩ := ih (off + n + 1) u h
        exact ⟨(env.drop off).take n :: recs, by simp [printf_s, hs, hr]⟩
    · rw [if_neg hc]
      exact ⟨[], rfl⟩

/-- A block on which `data_end` returns `u` is records laid out up to `u`, and the
scan stops in front of the bytes from `u` on. -/
theorem data_end_scans {env : List Byte} {u : Nat} (h : data_end env = some u) :
    ∃ recs, Scans env recs (env.drop u) ∧ (encode recs).length = u ∧ u ≤ blk_size env := by
  obtain ⟨recs, hr⟩ := data_end_loop_cmd_list env _ 0 u h
  obtain ⟨tail, hs⟩ := cmd_list_scans hr
  have hu := scans_data_end hs
  rw [h] at hu
  have hu' : (encode recs).length = u := (Option.some.inj hu).symm
  have ht : env.drop u = tail := by
    conv_lhs => rw [hs.1]
    rw [← hu', List.drop_left]
  refine ⟨recs, ?_, hu', ?_⟩
  · rw [ht]; exact hs
  · have := scans_length hs
    unfold blk_size; omega

theorem drop_eq_replicate (env : List Byte) (u : Nat)
    (h : ∀ i, i < env.length → u ≤ i → env.getD i 0 = 0) :
    env.drop u = List.replicate (env.length - u) 0 := by
  apply List.ext_getElem?
  intro i
  rw [List.getElem?_drop, List.getElem?_replicate]
  by_cases hi : i < env.length - u
  · have h1 := h (u + i) (by omega) (by omega)
    rw [List.getD_eq_getElem?_getD] at h1
    have h2 : u + i < env.length := by omega
    rw [if_pos hi]
    rw [List.getElem?_eq_getElem h2] at h1 ⊢
    simpa using h1
  · rw [if_neg hi]
    exact List.getElem?_eq_none (by omega)

theorem getD_append_replicate (A : List Byte) (m i : Nat) (h : A.length ≤ i) :
    (A ++ List.replicate m 0).getD i 0 = 0 := by
  rw [List.getD_append_right _ _ _ _ h, List.getD_eq_getElem?_getD, List.getElem?_replicate]
  split <;> rfl

theorem zeroPadded_scans {env : List Byte} {u : Nat} (h : ZeroPadded env u) :
    ∃ recs, Scans env recs (List.replicate (env.length - u) 0) ∧ (encode recs).length = u := by
  obtain ⟨recs, hs, hu, _⟩ := data_end_scans h.1
  refine ⟨recs, ?_, hu⟩
  rw [← drop_eq_replicate env u h.2.2]
  exact hs

theorem scans_zeroPadded {env : List Byte} {recs : List (List Byte)} {m : Nat}
    (h : Scans env recs (List.replicate m 0)) : ZeroPadded env (encode recs).length := by
  have hl := scans_length h
  refine ⟨scans_data_end h, by unfold blk_size; omega, ?_⟩
  intro i _ hi
  rw [h.1]
  exact getD_append_replicate _ _ _ hi

/-- A call of `cmd_set` that returns, on records followed by `m` zero bytes: the
argument is one more record, and fewer zero bytes follow, at least one. -/
theorem cmd_set_returned_scans {env : List Byte} {recs : List (List Byte)} {m : Nat}
    (h : Scans env recs (List.replicate m 0)) (s env1 : List Byte) (h0 : 0 ∉ s)
    (hset : cmd_set env s = some (Exit.returned, env1)) :
    Scans env1 (recs ++ [s]) (List.replicate (m - (s.length + 1)) 0) ∧ s.length + 1 < m ∧
      env1.length = env.length := by
  by_cases hv : EQ ∉ s ∨ s.head? = some EQ
  · rw [cmd_set_invalid env s h0 hv] at hset
    simp at hset
  · have he : EQ ∈ s := by by_contra hc; exact hv (Or.inl hc)
    have hh : s.head? ≠ some EQ := fun hc => hv (Or.inr hc)
    have hne : s ≠ [] := fun e => by simp [e] at he
    have hl := scans_length h
    simp only [List.length_replicate] at hl
    rw [cmd_set_scans h s h0 he hh] at hset
    by_cases hroom : (encode recs).length + (s.length + 1) < blk_size env
    · rw [if_pos hroom] at hset
      have henv : env1 = encode recs ++ (s ++ 0 :: (List.replicate m 0).drop (s.length + 1)) := by
        simpa using hset.symm
      unfold blk_size at hroom
      have hs1 := scans_after_set h s h0 hne
        (by rw [List.drop_replicate]; exact replicate_headD _)
      rw [← henv, List.drop_replicate] at hs1
      refine ⟨hs1, by omega, ?_⟩
      rw [henv]
      simp only [List.length_append, List.length_cons, List.length_drop, List.length_replicate]
      omega
    · rw [if_neg hroom] at hset
      simp at hset

/-- A call of `cmd_unset` on records followed by `m` zero bytes returns, and
the block is again records followed by zero bytes, at least `m` of them. -/
theorem cmd_unset_zero_scans {env : List Byte} {recs : List (List Byte)} {m : Nat}
    (h : Scans env recs (List.replicate m 0)) (key : List Byte) (hk : 0 ∉ key) :
    ∃ env1 recs1 m1, cmd_unset env key = some env1 ∧ Scans env1 recs1 (List.replicate m1 0) ∧
      m ≤ m1 ∧ (encode recs1).length + m1 = (encode recs).length + m := by
  by_cases hex : ∃ x ∈ recs, has_key key x = true
  · obtain ⟨pre, r, post, h1, h2, h3, _, _⟩ := split_first (has_key key) recs hex
    subst h1
    obtain ⟨c1, c2⟩ := cmd_unset_scans h key hk (fun x hx => has_key_false.1 (h2 x hx))
      (has_key_true.1 h3)
    rw [← List.replicate_add] at c1 c2
    refine ⟨_, pre ++ post, m + (r.length + 1), c1, c2, by omega, ?_⟩
    simp only [encode_append, encode, List.length_append, List.length_cons]
    omega
  · have hno : ∀ r ∈ recs, record_key r ≠ some key := by
      intro r hr hkr
      exact hex ⟨r, hr, has_key_true.2 hkr⟩
    exact ⟨env, recs, m, cmd_unset_missing h key hk hno, h, Nat.le_refl _, rfl⟩

theorem scans_blank (n : Nat) : Scans (List.replicate n 0) [] (List.replicate n 0) :=
  ⟨by simp [encode], replicate_headD n, by simp⟩

/-- C14 (the code does not do this): a block of 8 bytes none of which is zero,
as `load_env` gives it from an input of 8 such bytes. At offset 0 the loop
condition holds and `strlen` finds no zero byte inside the block, so the scan of
`data_end`, `find_kv` and `cmd_list` reads outside the block; the same happens on
a block whose last record has no terminator. -/
theorem scan_reads_past_block :
    load_env (LoadPath.opened [ReadEvent.data (List.replicate 8 65)]) (List.replicate 8 0) =
      some (Done.done (List.replicate 8 65)) ∧
    strlen ((List.replicate 8 65).drop 0) = none ∧
    data_end (List.replicate 8 65) = none ∧
    find_kv (List.replicate 8 65) [65] = none ∧
    cmd_list (List.replicate 8 65) = none ∧
    data_end [65, 61, 49, 0, 66, 61, 50, 50] = none ∧
    cmd_list [65, 61, 49, 0, 66, 61, 50, 50] = none := by
  decide

/-- C15: invariant I1 is kept by every mutation. If the bytes from the used
length `u` to the end of the block are zero, then the same holds, for the used
length of the new block, after a `cmd_set` that returns (the used length grows by
the length of the argument and its terminator), after `cmd_unset` (the used
length does not grow) and after `cmd_clear` (the used length is 0); the size of
the block does not change. -/
theorem zero_padding_preserved (env : List Byte) (u : Nat) (h : ZeroPadded env u) :
    (∀ s env1, 0 ∉ s → cmd_set env s = some (Exit.returned, env1) →
      ZeroPadded env1 (u + s.length + 1) ∧ blk_size env1 = blk_size env) ∧
    (∀ key, 0 ∉ key → ∃ env1 u1, cmd_unset env key = some env1 ∧ ZeroPadded env1 u1 ∧
      u1 ≤ u ∧ blk_size env1 = blk_size env) ∧
    (∃ env1, cmd_clear env = some env1 ∧ ZeroPadded env1 0 ∧ blk_size env1 = blk_size env) := by
  obtain ⟨recs, hs, hu⟩ := zeroPadded_scans h
  subst hu
  refine ⟨?_, ?_, ?_⟩
  · intro s env1 h0 hset
    obtain ⟨c1, _, c3⟩ := cmd_set_returned_scans hs s env1 h0 hset
    have := scans_zeroPadded c1
    simp only [encode_append, encode, List.length_append, List.length_cons, List.length_nil,
      List.append_nil] at this
    exact ⟨by rw [Nat.add_assoc]; exact this, c3⟩
  · intro key hk
    obtain ⟨env1, recs1, m1, c1, c2, c3, c4⟩ := cmd_unset_zero_scans hs key hk
    have l1 := scans_length c2
    have l := scans_length hs
    simp only [List.length_replicate] at l1 l
    exact ⟨env1, _, c1, scans_zeroPadded c2, by omega, by unfold blk_size; omega⟩
  · refine ⟨_, cmd_clear_eq env, ?_, by simp [blk_size]⟩
    exact scans_zeroPadded (scans_blank (blk_size env))

/-- Witness for C15: the block of 8 bytes holding `A=1`, with `set B=`,
`unset A` and `clear`. -/
theorem zero_padding_preserved_witness :
    ZeroPadded [65, 61, 49, 0, 0, 0, 0, 0] 4 ∧
    (ZeroPadded [65, 61, 49, 0, 66, 61, 0, 0] (4 + [66, 61].length + 1) ∧
      blk_size [65, 61, 49, 0, 66, 61, 0, 0] = blk_size [65, 61, 49, 0, 0, 0, 0, 0]) ∧
    (∃ env1 u1, cmd_unset [65, 61, 49, 0, 0, 0, 0, 0] [65] = some env1 ∧ ZeroPadded env1 u1 ∧
      u1 ≤ 4 ∧ blk_size env1 = blk_size [65, 61, 49, 0, 0, 0, 0, 0]) ∧
    (∃ env1, cmd_clear [65, 61, 49, 0, 0, 0, 0, 0] = some env1 ∧ ZeroPadded env1 0 ∧
      blk_size env1 = blk_size [65, 61, 49, 0, 0, 0, 0, 0]) :=
  ⟨by decide,
   (zero_padding_preserved [65, 61, 49, 0, 0, 0, 0, 0] 4 (by decide)).1 [66, 61]
     [65, 61, 49, 0, 66, 61, 0, 0] (by decide) (by decide),
   (zero_padding_preserved [65, 61, 49, 0, 0, 0, 0, 0] 4 (by decide)).2.1 [65] (by decide),
   (zero_padding_preserved [65, 61, 49, 0, 0, 0, 0, 0] 4 (by decide)).2.2⟩

theorem reachable_scans (n : Nat) (env : List Byte) (hn : 0 < n) (h : Reachable n env) :
    ∃ recs m, Scans env recs (List.replicate m 0) ∧ 0 < m ∧ env.length = n := by
  induction h with
  | blank => exact ⟨[], n, scans_blank n, hn, by simp⟩
  | set env s env1 _ h0 hset ih =>
    obtain ⟨recs, m, hs, _, hl⟩ := ih
    obtain ⟨c1, c2, c3⟩ := cmd_set_returned_scans hs s env1 h0 hset
    exact ⟨_, _, c1, by omega, by omega⟩
  | unset env key env1 _ hk hun ih =>
    obtain ⟨recs, m, hs, hm, hl⟩ := ih
    obtain ⟨e, recs1, m1, c1, c2, c3, c4⟩ := cmd_unset_zero_scans hs key hk
    rw [hun] at c1
    cases c1
    have l1 := scans_length c2
    have l := scans_length hs
    simp only [List.length_replicate] at l1 l
    exact ⟨recs1, m1, c2, by omega, by omega⟩
  | clear env env1 _ hcl ih =>
    obtain ⟨recs, m, hs, hm, hl⟩ := ih
    rw [cmd_clear_eq] at hcl
    cases hcl
    exact ⟨[], blk_size env, scans_blank _, by unfold blk_size; omega, by simp [blk_size, hl]⟩

/-- C16: every block reached from the blank block of `n` bytes, `n` at least 8,
by calls of `cmd_set` that return, of `cmd_unset` and of `cmd_clear` has `n` bytes,
a used length below `n`, zero bytes from the used length on, and so a last byte
that is zero. -/
theorem reachable_never_full (n : Nat) (env : List Byte) (hn : 8 ≤ n) (h : Reachable n env) :
    ∃ u, data_end env = some u ∧ u < blk_size env ∧ blk_size env = n ∧
      env.getD (n - 1) 0 = 0 ∧ ZeroPadded env u := by
  obtain ⟨recs, m, hs, hm, hl⟩ := reachable_scans n env (by omega) h
  have l := scans_length hs
  simp only [List.length_replicate] at l
  have hz := scans_zeroPadded hs
  refine ⟨_, hz.1, by unfold blk_size; omega, hl, ?_, hz⟩
  exact hz.2.2 (n - 1) (by unfold blk_size; omega) (by omega)

/-- Witness for C16: the block of 8 bytes reached from the blank block by
`set A=1`, `set B=` and `unset A`. -/
theorem reachable_never_full_witness :
    Reachable 8 [66, 61, 0, 0, 0, 0, 0, 0] ∧
    ∃ u, data_end [66, 61, 0, 0, 0, 0, 0, 0] = some u ∧ u < blk_size [66, 61, 0, 0, 0, 0, 0, 0] ∧
      blk_size [66, 61, 0, 0, 0, 0, 0, 0] = 8 ∧ [66, 61, 0, 0, 0, 0, 0, 0].getD (8 - 1) 0 = 0 ∧
      ZeroPadded [66, 61, 0, 0, 0, 0, 0, 0] u :=
  have hr : Reachable 8 [66, 61, 0, 0, 0, 0, 0, 0] :=
    Reachable.unset [65, 61, 49, 0, 66, 61, 0, 0] [65] _
      (Reachable.set [65, 61, 49, 0, 0, 0, 0, 0] [66, 61] _
        (Reachable.set (List.replicate 8 0) [65, 61, 49] _ Reachable.blank (by decide)
          (by decide))
        (by decide) (by decide))
      (by decide) (by decide)
  ⟨hr, reachable_never_full 8 [66, 61, 0, 0, 0, 0, 0, 0] (by decide) hr⟩

theorem getD_splice (A B B1 C : List Byte) (hB : B.length = B1.length) (i : Nat)
    (hi : i < A.length ∨ A.length + B.length ≤ i) :
    (A ++ (B ++ C)).getD i 0 = (A ++ (B1 ++ C)).getD i 0 := by
  rcases hi with hi | hi
  · rw [List.getD_append _ _ _ _ hi, List.getD_append _ _ _ _ hi]
  · rw [List.getD_append_right _ _ _ _ (by omega), List.getD_append_right _ _ _ _ (by omega),
      List.getD_append_right _ _ _ _ (by omega), List.getD_append_right _ _ _ _ (by omega), hB]

/-- C19: on a block whose scan stays inside the buffer, with `data_end` = `u`, a
`cmd_set` with a valid argument `s` and `u + strlen (s) + 1 < blk_size` returns,
and the new block has the same size and differs from the old one only at the
offsets from `u` to `u + strlen (s)`, where it holds `s` and its terminator: the
bytes below `u` and the bytes above `u + strlen (s)` are unchanged. When `cmd_set`
does not return, the block is unchanged. -/
theorem cmd_set_pure_append (env s : List Byte) (u : Nat) (h0 : 0 ∉ s) (he : EQ ∈ s)
    (hh : s.head? ≠ some EQ) (hu : data_end env = some u) :
    (u + s.length + 1 < blk_size env →
      ∃ env1, cmd_set env s = some (Exit.returned, env1) ∧ blk_size env1 = blk_size env ∧
        env1.take u = env.take u ∧ (env1.drop u).take (s.length + 1) = s ++ [0] ∧
        env1.drop (u + s.length + 1) = env.drop (u + s.length + 1) ∧
        ∀ i, i < u ∨ u + s.length < i → env1.getD i 0 = env.getD i 0) ∧
    (∀ e env1, cmd_set env s = some (e, env1) → e ≠ Exit.returned → env1 = env) := by
  obtain ⟨recs, hs, hlen, hle⟩ := data_end_scans hu
  subst hlen
  constructor
  · intro hroom
    have hl := scans_length hs
    unfold blk_size at hroom hle
    have hsplit : env.drop (encode recs).length =
        (env.drop (encode recs).length).take (s.length + 1) ++
        (env.drop (encode recs).length).drop (s.length + 1) := (List.take_append_drop _ _).symm
    have henv : env = encode recs ++ ((env.drop (encode recs).length).take (s.length + 1) ++
        (env.drop (encode recs).length).drop (s.length + 1)) := by
      rw [← hsplit]; exact hs.1
    have hnew : encode recs ++ (s ++ 0 :: (env.drop (encode recs).length).drop (s.length + 1)) =
        encode recs ++ ((s ++ [0]) ++ (env.drop (encode recs).length).drop (s.length + 1)) := by
      simp
    refine ⟨encode recs ++ (s ++ 0 :: (env.drop (encode recs).length).drop (s.length + 1)),
      ?_, ?_, ?_, ?_, ?_, ?_⟩
    · rw [cmd_set_scans hs s h0 he hh, if_pos (by unfold blk_size; omega)]
    · unfold blk_size
      simp only [List.length_append, List.length_cons, List.length_drop]
      omega
    · rw [List.take_left]
      conv_rhs => rw [hs.1]
      rw [List.take_left]
    · rw [hnew, List.drop_left]
      exact List.take_left' (by simp)
    · rw [hnew, List.drop_drop, Nat.add_assoc, ← List.append_assoc]
      exact List.drop_left' (by simp)
    · intro i hi
      rw [hnew]
      conv_rhs => rw [henv]
      apply getD_splice
      · simp only [List.length_append, List.length_cons, List.length_nil, List.length_take,
          List.length_drop]
        omega
      · simp only [List.length_append, List.length_cons, List.length_nil]
        omega
  · intro e env1 h hne
    cases e with
    | returned => exact absurd rfl hne
    | var_value_required => exact absurd h (cmd_set_never_invalid env s env1 h0 he hh)
    | env_block_full => exact cmd_set_full_unchanged env s env1 h0 h

/-- Witness for C19: a block of 13 bytes holding `A=1` twice and, behind the zero
byte the scan stops at, bytes that are not zero; `set A=2`. -/
theorem cmd_set_pure_append_witness :
    cmd_set [65, 61, 49, 0, 65, 61, 49, 0, 0, 90, 90, 90, 90] [65, 61, 50] =
      some (Exit.returned, [65, 61, 49, 0, 65, 61, 49, 0, 65, 61, 50, 0, 90]) ∧
    ∃ env1, cmd_set [65, 61, 49, 0, 65, 61, 49, 0, 0, 90, 90, 90, 90] [65, 61, 50] =
        some (Exit.returned, env1) ∧
      blk_size env1 = blk_size [65, 61, 49, 0, 65, 61, 49, 0, 0, 90, 90, 90, 90] ∧
      env1.take 8 = [65, 61, 49, 0, 65, 61, 49, 0, 0, 90, 90, 90, 90].take 8 ∧
      (env1.drop 8).take ([65, 61, 50].length + 1) = [65, 61, 50] ++ [0] ∧
      env1.drop (8 + [65, 61, 50].length + 1) =
        [65, 61, 49, 0, 65, 61, 49, 0, 0, 90, 90, 90, 90].drop (8 + [65, 61, 50].length + 1) ∧
      ∀ i, i < 8 ∨ 8 + [65, 61, 50].length < i →
        env1.getD i 0 = [65, 61, 49, 0, 65, 61, 49, 0, 0, 90, 90, 90, 90].getD i 0 :=
  ⟨by decide,
   (cmd_set_pure_append [65, 61, 49, 0, 65, 61, 49, 0, 0, 90, 90, 90, 90] [65, 61, 50] 8
    (by decide) (by decide) (by decide) (by decide)).1 (by decide)⟩

/-! ## blocks whose last byte is zero -/

theorem strlen_of_mem (m : List Byte) (h : 0 ∈ m) : ∃ n, strlen m = some n := by
  induction m with
  | nil => simp at h
  | cons b t ih =>
    by_cases hb : b = 0
    · exact ⟨0, by simp [strlen, hb]⟩
    · have ht : 0 ∈ t := by
        rcases List.mem_cons.1 h with h | h
        · exact absurd h.symm hb
        · exact h
      obtain ⟨n, hn⟩ := ih ht
      exact ⟨n + 1, by simp [strlen, hb, hn]⟩

theorem mem_drop_of_last (env : List Byte) (off : Nat) (hlast : env.getLast? = some 0)
    (h : off < env.length) : 0 ∈ env.drop off := by
  obtain ⟨ys, hys⟩ := List.getLast?_eq_some_iff.1 hlast
  rw [hys]
  have hl : off ≤ ys.length := by
    rw [hys] at h
    simp only [List.length_append, List.length_cons, List.length_nil] at h
    omega
  rw [List.drop_append_of_le_length hl]
  simp

theorem cmd_list_loop_last_zero (env : List Byte) (hlast : env.getLast? = some 0) :
    ∀ (fuel off : Nat), 0 < fuel → env.length < fuel + off →
      ∃ recs, cmd_list_loop env fuel off = some recs := by
  intro fuel
  induction fuel with
  | zero => intro off h; exact absurd h (by decide)
  | succ f ih =>
    intro off _ hl
    simp only [cmd_list_loop]
    by_cases hc : off < blk_size env ∧ env.getD off 0 ≠ 0
    · rw [if_pos hc]
      obtain ⟨n, hn⟩ := strlen_of_mem _ (mem_drop_of_last env off hlast hc.1)
      have := strlen_lt hn
      simp only [List.length_drop] at this
      obtain ⟨recs, hr⟩ := ih (off + n + 1) (by omega) (by omega)
      exact ⟨(env.drop off).take n :: recs, by simp [printf_s, hn, hr]⟩
    · rw [if_neg hc]
      exact ⟨[], rfl⟩

/-- On a block whose scan ends, `find_kv` returns `NULL` and `cmd_unset` changes
nothing, or `find_kv` returns a record that lies, with its terminator, inside
the block, and `cmd_unset` returns a block of the same size. -/
theorem scans_find_kv_cases {env : List Byte} {recs : List (List Byte)} {tail : List Byte}
    (h : Scans env recs tail) (key : List Byte) (hk : 0 ∉ key) :
    (find_kv env key = some none ∧ cmd_unset env key = some env) ∨
    (∃ o n env1, find_kv env key = some (some o) ∧ strlen (env.drop o) = some n ∧
      o + n + 1 ≤ blk_size env ∧ cmd_unset env key = some env1 ∧
      blk_size env1 = blk_size env) := by
  by_cases hex : ∃ x ∈ recs, has_key key x = true
  · right
    obtain ⟨pre, r, post, h1, h2, h3, _, _⟩ := split_first (has_key key) recs hex
    subst h1
    have hr := h.2.2 r (by simp)
    have henv : env = encode pre ++ (r ++ 0 :: (encode post ++ tail)) := by
      rw [h.1]; simp [encode_append, encode]
    obtain ⟨c1, _⟩ := cmd_unset_scans h key hk (fun x hx => has_key_false.1 (h2 x hx))
      (has_key_true.1 h3)
    have hf : find_kv env key = some (some (encode pre).length) := by
      rw [henv]
      exact find_kv_found pre r _ key hk (fun x hx => h.2.2 x (by simp [hx])) hr.1 hr.2
        (fun x hx => has_key_false.1 (h2 x hx)) (has_key_true.1 h3)
    have hl := congrArg List.length henv
    simp only [List.length_append, List.length_cons] at hl
    refine ⟨(encode pre).length, r.length, _, hf, ?_, ?_, c1, ?_⟩
    · conv_lhs => rw [henv]
      rw [List.drop_left]
      exact strlen_append r _ hr.2
    · unfold blk_size; omega
    · unfold blk_size
      simp only [encode_append, List.length_append, List.length_replicate]
      omega
  · left
    have hno : ∀ r ∈ recs, record_key r ≠ some key := by
      intro r hr hkr
      exact hex ⟨r, hr, has_key_true.2 hkr⟩
    exact ⟨scans_find_kv_none h key hk hno, cmd_unset_missing h key hk hno⟩

/-- C20: on a block whose last byte is zero the scan ends within `blk_size + 1`
iterations (a larger budget gives the same result) without reading outside the
block: `data_end` returns an offset `u` of at most `blk_size`, the bytes up to `u`
are the strings measured, each with its terminator, `cmd_list` prints them, and
for every key `find_kv` returns `NULL` or a record that lies, with its
terminator, inside the block; `cmd_unset` then returns (its `memmove` and `memset`
stay inside the block) with a block of the same size. -/
theorem scan_in_bounds_when_last_byte_zero (env : List Byte)
    (hlast : env.getLast? = some 0) :
    ∃ u recs, data_end env = some u ∧ u ≤ blk_size env ∧
      (∀ k, data_end_loop env (blk_size env + 1 + k) 0 = some u) ∧
      cmd_list env = some recs ∧ env.take u = encode recs ∧
      ∀ key, 0 ∉ key →
        ∃ res env1, find_kv env key = some res ∧
          (∀ o, res = some o →
            ∃ n, strlen (env.drop o) = some n ∧ o + n + 1 ≤ blk_size env) ∧
          cmd_unset env key = some env1 ∧ blk_size env1 = blk_size env := by
  obtain ⟨recs, hr⟩ := cmd_list_loop_last_zero env hlast (blk_size env + 1) 0 (by omega)
    (by unfold blk_size; omega)
  obtain ⟨tail, hs⟩ := cmd_list_scans hr
  have hu := scans_data_end hs
  have hl := scans_length hs
  refine ⟨_, recs, hu, by unfold blk_size; omega, ?_, hr, ?_, ?_⟩
  · intro k
    rw [data_end_loop_budget env (blk_size env + 1) 0 k (by omega) (by unfold blk_size; omega)]
    exact hu
  · conv_lhs => rw [hs.1]
    rw [List.take_left]
  · intro key hk
    rcases scans_find_kv_cases hs key hk with ⟨h1, h2⟩ | ⟨o, n, env1, h1, h2, h3, h4, h5⟩
    · exact ⟨none, env, h1, (fun o ho => by cases ho), h2, rfl⟩
    · refine ⟨some o, env1, h1, ?_, h4, h5⟩
      intro o1 ho
      cases ho
      exact ⟨n, h2, h3⟩

/-- Witness for C20: a block of 10 bytes holding `A=1` and `B=` whose bytes behind
the zero byte the scan stops at are not all zero; its last byte is zero. -/
theorem scan_in_bounds_when_last_byte_zero_witness :
    [65, 61, 49, 0, 66, 61, 0, 0, 90, 0].getLast? = some 0 ∧
    ∃ u recs, data_end [65, 61, 49, 0, 66, 61, 0, 0, 90, 0] = some u ∧
      u ≤ blk_size [65, 61, 49, 0, 66, 61, 0, 0, 90, 0] ∧
      (∀ k, data_end_loop [65, 61, 49, 0, 66, 61, 0, 0, 90, 0]
        (blk_size [65, 61, 49, 0, 66, 61, 0, 0, 90, 0] + 1 + k) 0 = some u) ∧
      cmd_list [65, 61, 49, 0, 66, 61, 0, 0, 90, 0] = some recs ∧
      [65, 61, 49, 0, 66, 61, 0, 0, 90, 0].take u = encode recs ∧
      ∀ key, 0 ∉ key →
        ∃ res env1, find_kv [65, 61, 49, 0, 66, 61, 0, 0, 90, 0] key = some res ∧
          (∀ o, res = some o →
            ∃ n, strlen ([65, 61, 49, 0, 66, 61, 0, 0, 90, 0].drop o) = some n ∧
              o + n + 1 ≤ blk_size [65, 61, 49, 0, 66, 61, 0, 0, 90, 0]) ∧
          cmd_unset [65, 61, 49, 0, 66, 61, 0, 0, 90, 0] key = some env1 ∧
          blk_size env1 = blk_size [65, 61, 49, 0, 66, 61, 0, 0, 90, 0] :=
  ⟨by decide, scan_in_bounds_when_last_byte_zero [65, 61, 49, 0, 66, 61, 0, 0, 90, 0]
    (by decide)⟩

end Grubenv
